import Mathlib

/-!
# pbrain: a shallow embedding of the interpreter in `pbrain.cpp`

The C++ program keeps three globals (`mem`, `mp`, `procedures`) and talks to
two character streams.  Here they are the fields of one `State` that is
threaded through `interpret` and `loop`.  An iterator range `[ii, eos)` is the
list of the characters it spans.  `throw e` is the outcome `fault e`, and the
two places where the C++ leaves defined behaviour (an access `mem[mp]` outside
the vector, an iterator moved past `eos`) are the outcome `undef`.  Since a
pbrain program may run forever, `interpret` and `loop` take a fuel argument and
answer `none` when it is used up; one unit of fuel is spent per character
dispatched and per test of a loop.

Cells are the 32 bit `int` with wrap-around, `mp` is a 64 bit `size_t`, and a
unit of input or output is the integer code of a `wchar_t`.
-/

namespace Pbrain

/-- The C++ `SourceBlock`: a string of instructions. -/
abbrev SourceBlock := List Char

/-- The C++ `Procedures`: a `std::map` from cell values to source blocks, kept
as an association list in which every key occurs at most once. -/
abbrev Procedures := List (Int × SourceBlock)

/-- The C++ `Mem`: a `std::vector` of cells. -/
abbrev Mem := List Int

/-- The number of values of `size_t`, the type of `mp`. -/
def sizeMod : Nat := 2 ^ 64

/-- A value brought into the range of the 32 bit `int`
(`PBRAIN_MEM_TYPE`), two's complement. -/
def wrapCell (x : Int) : Int := (x + 2147483648) % 4294967296 - 2147483648

/-- The conversion `static_cast<int>(mp)`: the low 32 bits, read as signed. -/
def castInt (n : Nat) : Int := wrapCell (n : Int)

/-- The conversion `(unsigned int)(mp)`: the low 32 bits. -/
def castUnsigned (n : Nat) : Nat := n % 4294967296

/-- The call `procedures.find(k)`: the block stored under `k`, if any. -/
def find (t : Procedures) (k : Int) : Option SourceBlock :=
  match t with
  | [] => none
  | (k1, b) :: t1 => if k = k1 then some b else find t1 k

/-- The call `procedures.insert(std::make_pair(k, b))`: `std::map::insert`
adds the pair only when the key is not yet present. -/
def insert (t : Procedures) (k : Int) (b : SourceBlock) : Procedures :=
  match find t k with
  | some _ => t
  | none => t ++ [(k, b)]

/-- The mutable context of one run: the globals `mem`, `mp` and `procedures`,
the units still to be read from `io::cin`, the units written to `io::cout` so
far, and the largest number of cells the allocator is able to provide (what
decides whether `mem.resize` throws). -/
structure State where
  mem : Mem
  mp : Nat
  procedures : Procedures
  input : List Int
  output : List Int
  avail : Nat
deriving DecidableEq, Repr

/-- Behaviour the C++ standard leaves undefined. -/
inductive Undef where
  /-- The access `mem[mp]` with `mp` not below `mem.size()`. -/
  | cellOutOfRange
  /-- The iterator `ii` was incremented past `eos`. -/
  | readPastEnd
deriving DecidableEq, Repr

/-- How a call of `interpret` or `loop` ends: it returns, it throws the
integer `e`, or its behaviour is undefined from there on.  The state is the
one at that moment. -/
inductive Outcome where
  | done (s : State)
  | fault (e : Nat) (s : State)
  | undef (u : Undef) (s : State)
deriving DecidableEq, Repr

/-- The state carried by an outcome. -/
def Outcome.state : Outcome → State
  | .done s => s
  | .fault _ s => s
  | .undef _ s => s

/-- Sequencing: continue with `k` after a normal return, stop otherwise. -/
def Outcome.andThen (o : Outcome) (k : State → Option Outcome) : Option Outcome :=
  match o with
  | .done s => k s
  | .fault e s => some (.fault e s)
  | .undef u s => some (.undef u s)

/-- Sequencing after a call that may itself run out of fuel. -/
def seq (r : Option Outcome) (k : State → Option Outcome) : Option Outcome :=
  r.bind fun o => o.andThen k

/-- The read `mem[mp]`. -/
def State.cell (s : State) : Option Int := s.mem[s.mp]?

/-- The write `mem[mp] = v`. -/
def State.setCell (s : State) (v : Int) : State :=
  { s with mem := s.mem.set s.mp v }

/-- Case `'+'`: `++mem[mp]`. -/
def plus (s : State) : Outcome :=
  match s.cell with
  | none => .undef .cellOutOfRange s
  | some v => .done (s.setCell (wrapCell (v + 1)))

/-- Case `'-'`: `--mem[mp]`. -/
def minus (s : State) : Outcome :=
  match s.cell with
  | none => .undef .cellOutOfRange s
  | some v => .done (s.setCell (wrapCell (v - 1)))

/-- Case `'>'`: `++mp`, then `mem.resize(mem.size() * 2)` when `mp` has reached
`mem.size()`; the new cells are zero.  The resize fails when the allocator
does not provide that many cells, and a failed resize is `throw 1`, the tape
being as before and the cursor already moved. -/
def right (s : State) : Outcome :=
  let s1 : State := { s with mp := (s.mp + 1) % sizeMod }
  if s1.mp = s1.mem.length then
    if s1.mem.length * 2 ≤ s1.avail then
      .done { s1 with mem := s1.mem ++ List.replicate s1.mem.length 0 }
    else .fault 1 s1
  else .done s1

/-- Case `'<'`: `--mp`, then `throw 3` when `static_cast<int>(mp) < 0`. -/
def left (s : State) : Outcome :=
  let s1 : State := { s with mp := (s.mp + sizeMod - 1) % sizeMod }
  if castInt s1.mp < 0 then .fault 3 s1 else .done s1

/-- Case `'.'`: `io::cout.put(static_cast<PBRAIN_CHARACTER_TYPE>(mem[mp]))`; the
unit written is the value of the cell.  The character type is `wchar_t`, whose
end-of-file value `WEOF` is what the cell value `-1` converts to: `put` hands
it to the stream buffer of `std::wcout`, which takes it as the request to
flush and writes no unit; the stream stays usable. -/
def put (s : State) : Outcome :=
  match s.cell with
  | none => .undef .cellOutOfRange s
  | some v => if v = -1 then .done s else .done { s with output := s.output ++ [v] }

/-- Case `','`: `mem[mp] = static_cast<PBRAIN_MEM_TYPE>(io::cin.get())`; at the
end of the input `get()` returns the end-of-file value, which converts to
`-1`. -/
def get (s : State) : Outcome :=
  if s.mp < s.mem.length then
    match s.input with
    | [] => .done (s.setCell (-1))
    | u :: us => .done ({ s with input := us }.setCell (wrapCell u))
  else .undef .cellOutOfRange s

/-- The scan for the matching `]` in case `'['`, started behind the `[`: `nest`
counts the `[` met and not yet closed.  The answer is the loop body (the
range handed to `loop`) and the characters after the matching `]`, or `none`
when `eos` is reached first. -/
def findMatch : Nat → SourceBlock → Option (SourceBlock × SourceBlock)
  | _, [] => none
  | nest, c :: cs =>
    if c = '[' then
      (findMatch (nest + 1) cs).map fun p => (c :: p.1, p.2)
    else if c = ']' then
      if nest ≠ 0 then
        (findMatch (nest - 1) cs).map fun p => (c :: p.1, p.2)
      else some ([], cs)
    else (findMatch nest cs).map fun p => (c :: p.1, p.2)

/-- The copy loop of case `'('`: the characters before the first `')'`. -/
def captured (cs : SourceBlock) : SourceBlock := cs.takeWhile (fun c => c != ')')

/-- Where the copy loop of case `'('` stops: at the first `')'`, or at `eos`. -/
def afterCapture (cs : SourceBlock) : SourceBlock := cs.dropWhile (fun c => c != ')')

mutual

/-- The C++ `interpret(ii, eos)` over the characters of `[ii, eos)`: the `while`
loop takes the first character, the `switch` acts on it, and `++ii` leaves the
rest of the range.  In case `'('` the copy loop may stop at `eos`; the `++ii`
that follows then moves the iterator past `eos`. -/
def interpret : Nat → SourceBlock → State → Option Outcome
  | 0, _, _ => none
  | _ + 1, [], s => some (.done s)
  | fuel + 1, c :: rest, s =>
    if c = '+' then (plus s).andThen (interpret fuel rest)
    else if c = '-' then (minus s).andThen (interpret fuel rest)
    else if c = '>' then (right s).andThen (interpret fuel rest)
    else if c = '<' then (left s).andThen (interpret fuel rest)
    else if c = '.' then (put s).andThen (interpret fuel rest)
    else if c = ',' then (get s).andThen (interpret fuel rest)
    else if c = '[' then
      match findMatch 0 rest with
      | none => some (.fault 4 s)
      | some (body, after) =>
        seq (loop fuel body s) (interpret fuel after)
    else if c = '(' then
      match s.cell with
      | none => some (.undef .cellOutOfRange s)
      | some k =>
        let s1 : State := { s with procedures := insert s.procedures k (captured rest) }
        match afterCapture rest with
        | [] => some (.undef .readPastEnd s1)
        | _ :: after => interpret fuel after s1
    else if c = ':' then
      match s.cell with
      | none => some (.undef .cellOutOfRange s)
      | some k =>
        match find s.procedures k with
        | some body =>
          seq (interpret fuel body s) (interpret fuel rest)
        | none => some (.fault 2 s)
    else interpret fuel rest s

/-- The C++ `loop(ii, eos)`: `while (mem[mp]) interpret(ii, eos);`. -/
def loop : Nat → SourceBlock → State → Option Outcome
  | 0, _, _ => none
  | fuel + 1, body, s =>
    match s.cell with
    | none => some (.undef .cellOutOfRange s)
    | some v =>
      if v = 0 then some (.done s)
      else seq (interpret fuel body s) (loop fuel body)

end

/-- The state at the start of `main`: `PBRAIN_INIT_MEM_SIZE` cells, all zero,
`mp = 0` and no procedure. -/
def initial (input : List Int) (avail : Nat) : State :=
  { mem := List.replicate 30000 0, mp := 0, procedures := [],
    input := input, output := [], avail := avail }



/-- The six characters `operator>>` skips in the classic locale. -/
def isspace (c : Char) : Bool :=
  c = ' ' || c = '\t' || c = '\n' || c = '\x0b' || c = '\x0c' || c = '\r'

/-- The C++ `parse(c)`: the stream iterator delivers the characters of the
stream without white space; they are copied to a source block, which is
interpreted. -/
def parse (fuel : Nat) (c : List Char) (s : State) : Option Outcome :=
  interpret fuel (c.filter fun ch => !isspace ch) s

/-- The text `main` writes to `std::cerr` for the thrown integer `e`. -/
def diagnostic (e : Nat) (s : State) : String :=
  "Error " ++ toString e ++ ", cell " ++ toString (castUnsigned s.mp) ++ "\n"

/-- How the program was started: with a file name (`none` when the file cannot
be opened) and some standard input, or without arguments, the program text
then being the standard input. -/
inductive Invocation where
  | file (contents : Option (List Char)) (stdin : List Int)
  | stdin (text : List Char)

/-- What the process leaves behind: the units written to standard output, the
text written to standard error and the exit status; or undefined behaviour. -/
inductive Run where
  | exit (stdout : List Int) (stderr : String) (status : Nat)
  | undefined (u : Undef)
deriving DecidableEq, Repr

/-- The end of `main`: normal return, or the handler `catch (int e)`. -/
def finish : Option Outcome → Option Run
  | none => none
  | some (.done s) => some (.exit s.output "" 0)
  | some (.fault e s) => some (.exit s.output (diagnostic e s) e)
  | some (.undef u _) => some (.undefined u)

/-- The C++ `main`. -/
def main (fuel : Nat) (inv : Invocation) (avail : Nat) : Option Run :=
  match inv with
  | .file none _ => some (.exit [] "" 0)
  | .file (some text) input => finish (parse fuel text (initial input avail))
  | .stdin text => finish (parse fuel text (initial [] avail))

/-- The range `[ii, eos)` run from `s` ends with outcome `o`. -/
def Runs (p : SourceBlock) (s : State) (o : Outcome) : Prop :=
  ∃ fuel, interpret fuel p s = some o

/-- The call `loop(ii, eos)` from `s` ends with outcome `o`. -/
def Loops (body : SourceBlock) (s : State) (o : Outcome) : Prop :=
  ∃ fuel, loop fuel body s = some o

/-- The outcome `o` of running a continuation `R` after `x`: `R` runs from the
state `x` returned, and any other `x` is final. -/
def Outcome.follow (x : Outcome) (R : State → Outcome → Prop) (o : Outcome) : Prop :=
  match x with
  | .done s => R s o
  | .fault e s => o = .fault e s
  | .undef u s => o = .undef u s

/-- The characters with a `case` label in the `switch` of `interpret`. -/
def isInstr (c : Char) : Bool :=
  c = '+' || c = '-' || c = '>' || c = '<' || c = '.' || c = ',' || c = '[' || c = '(' || c = ':'

/-- The state `s` in other surroundings: the cells `x` follow those of `s` on the
tape, the allocator provides `a` cells and the pending input is `inp`. -/
def widen (x : Mem) (a : Nat) (inp : List Int) (s : State) : State :=
  { s with mem := s.mem ++ x, avail := a, input := inp }

/-- The outcome with its state changed by `f`. -/
def Outcome.map (f : State → State) : Outcome → Outcome
  | .done s => .done (f s)
  | .fault e s => .fault e (f s)
  | .undef u s => .undef u (f s)

/-- A normal return, or a fault other than out of memory. -/
def Outcome.tame : Outcome → Prop
  | .done _ => True
  | .fault e _ => e ≠ 1
  | .undef _ _ => False

/-- A tape that cannot grow, with procedures that do not read: the cursor is on
the tape, the allocator does not provide twice its length, and no stored block
contains `','`. -/
def Fixed (s : State) : Prop :=
  s.mp < s.mem.length ∧ s.mem.length < sizeMod ∧ s.avail < s.mem.length * 2 ∧
    ∀ k b, find s.procedures k = some b → ',' ∉ b

/-- The program of the header comment without its last line `>+++:`. -/
def combined : SourceBlock :=
  "+([-])+(-:<<[>>+<<-]>[>+<-]>)+([-]>++++++++++[<++++>-]<++++++++>[-]++:.)>+++>+++++>++:".toList

/-- The whole program of the header comment (lines 53 to 57 of `pbrain.cpp`),
as `parse` hands it to `interpret`. -/
def headerProgram : SourceBlock := combined ++ ">+++:".toList

/-- Eight zero cells, the cursor on the first, no procedure, nothing to read
and no memory to grow into. -/
def smallTape : State :=
  { mem := List.replicate 8 0, mp := 0, procedures := [], input := [], output := [],
    avail := 0 }

/-- The three procedures the header program defines. -/
def headerProcedures : Procedures :=
  [(1, "[-]".toList), (2, "-:<<[>>+<<-]>[>+<-]>".toList),
   (3, "[-]>++++++++++[<++++>-]<++++++++>[-]++:.".toList)]

/-- A state with one procedure: key 1 is bound to `[-]`, and the current cell
holds 1. -/
def oneProcedure : State :=
  { mem := [1, 0], mp := 0, procedures := [(1, ['[', '-', ']'])], input := [], output := [],
    avail := 0 }

/-- A state without procedures whose current cell holds 0. -/
def blank : State :=
  { mem := [0, 0], mp := 0, procedures := [], input := [], output := [], avail := 0 }

/-- The first `k` passes of `loop` over `body` lead from `s` to `t`: each pass
is entered with a current cell other than 0 and returns normally. -/
def Passes (body : SourceBlock) : Nat → State → State → Prop
  | 0, s, t => s = t
  | k + 1, s, t =>
    ∃ v s1, s.cell = some v ∧ v ≠ 0 ∧ Runs body s (.done s1) ∧ Passes body k s1 t

/-- A state whose current cell holds -1, as after `-` on a zero cell. -/
def minusOne : State :=
  { mem := [-1, 0], mp := 0, procedures := [], input := [], output := [], avail := 0 }

/-- A full tape of two cells, the cursor on the last one, and an allocator that
provides four cells. -/
def twoCells : State :=
  { mem := [5, 7], mp := 1, procedures := [], input := [], output := [], avail := 4 }

/-- The state `twoCells` after `>`. -/
def fourCells : State :=
  { mem := [5, 7, 0, 0], mp := 2, procedures := [], input := [], output := [], avail := 4 }

/-- A state with two units to read, the current cell holding 0. -/
def twoUnits : State :=
  { mem := [0, 0], mp := 0, procedures := [], input := [65, 66], output := [], avail := 0 }

/-- A tape grown seventeen times from its initial length, with the cursor on
cell 2147483649. -/
def highCursor : State :=
  { mem := List.replicate 3932160000 0, mp := 2147483649, procedures := [], input := [],
    output := [], avail := 3932160000 }

/-- The six cases of the `switch` that act on the state and `break`: the action
of the character, if it has one of them. -/
def prim (c : Char) : Option (State → Outcome) :=
  if c = '+' then some plus
  else if c = '-' then some minus
  else if c = '>' then some right
  else if c = '<' then some left
  else if c = '.' then some put
  else if c = ',' then some get
  else none

/-- One move of the dispatch, from the range `p` in state `s` to the range `q`
in state `t`: `q` is what is left of `p` once its first character has been
dealt with (for `:` and `[` after the call or the pass has returned
normally), or it is the procedure body or loop body that the first character
makes `interpret` enter. -/
inductive Step : SourceBlock → State → SourceBlock → State → Prop where
  /-- One of `+ - > < . ,` acts and returns normally. -/
  | act {c : Char} {r : SourceBlock} {s t : State} {f : State → Outcome} :
      prim c = some f → f s = .done t → Step (c :: r) s r t
  /-- The `default` case. -/
  | skip {c : Char} {r : SourceBlock} {s : State} :
      isInstr c = false → Step (c :: r) s r s
  /-- A definition that is closed within its range. -/
  | define {rest after : SourceBlock} {s : State} {k : Int} {d : Char} :
      s.cell = some k → afterCapture rest = d :: after →
      Step ('(' :: rest) s after
        { s with procedures := insert s.procedures k (captured rest) }
  /-- The call `interpret(i->second.begin(), i->second.end())` is entered. -/
  | enterCall {r b : SourceBlock} {s : State} {k : Int} :
      s.cell = some k → find s.procedures k = some b → Step (':' :: r) s b s
  /-- The procedure has returned. -/
  | afterCall {r b : SourceBlock} {s t : State} {k : Int} :
      s.cell = some k → find s.procedures k = some b → Runs b s (.done t) →
      Step (':' :: r) s r t
  /-- The test of `loop` succeeds and the body is entered. -/
  | enterLoop {rest body after : SourceBlock} {s : State} {v : Int} :
      findMatch 0 rest = some (body, after) → s.cell = some v → v ≠ 0 →
      Step ('[' :: rest) s body s
  /-- A pass of the body has returned; the test is made again. -/
  | again {rest body after : SourceBlock} {s t : State} {v : Int} :
      findMatch 0 rest = some (body, after) → s.cell = some v → v ≠ 0 →
      Runs body s (.done t) → Step ('[' :: rest) s ('[' :: rest) t
  /-- The test of `loop` fails. -/
  | leaveLoop {rest body after : SourceBlock} {s : State} :
      findMatch 0 rest = some (body, after) → s.cell = some 0 →
      Step ('[' :: rest) s after s

/-- The dispatch of the range `p` from state `s` gets, after any number of
moves and at any depth of nested calls of `interpret`, to the dispatch of the
range `q` in state `t`. -/
inductive Reaches : SourceBlock → State → SourceBlock → State → Prop where
  | here (p : SourceBlock) (s : State) : Reaches p s p s
  | next {p p1 q : SourceBlock} {s s1 t : State} :
      Step p s p1 s1 → Reaches p1 s1 q t → Reaches p s q t

/-- The outcome is a normal return. -/
def Outcome.isDone : Outcome → Bool
  | .done _ => true
  | .fault _ _ => false
  | .undef _ _ => false

/-- The cursor addresses a cell, and the length of the tape and the limit of
the allocator are values of `size_t`. -/
def State.wf (s : State) : Prop :=
  s.mp < s.mem.length ∧ s.mem.length < sizeMod ∧ s.avail < sizeMod

/-- What the cursor invariant says of an outcome: a state returned has its
cursor on the tape, and undefined behaviour, if any, is not an access to a
cell outside the tape. -/
def Outcome.inBounds : Outcome → Prop
  | .done t => t.wf
  | .fault _ _ => True
  | .undef u _ => u ≠ .cellOutOfRange

/-- The state `blank` after `+`. -/
def plusOne : State :=
  { mem := [1, 0], mp := 0, procedures := [], input := [], output := [], avail := 0 }

/-- The state `s` with the tape `m` and the cursor on cell `j`. -/
def State.tape (s : State) (m : Mem) (j : Nat) : State :=
  { s with mem := m, mp := j }

/-- The body of a loop that moves the current cell into the cell `d` places to
its right: `d` times `>`, a `+`, `d` times `<`, a `-`. -/
def transfer (d : Nat) : SourceBlock :=
  List.replicate d '>' ++ '+' :: (List.replicate d '<' ++ ['-'])

/-- The body of procedure 2 in the header comment (line 32 of `pbrain.cpp`). -/
def addBody : SourceBlock := "<<[>>+<<-]>[>+<-]>".toList

/-- The parameters 3 and 5 and the key 2 on the tape, the cursor on the key, and
procedure 2 defined as in the header comment. -/
def threeFive : State :=
  { mem := [3, 5, 2], mp := 2, procedures := [(2, addBody)], input := [], output := [],
    avail := 0 }

/-- The blocks `b` and `b1` are the same but for occurrences of the character
`c`: each is the other with some `c` inserted or left out. -/
inductive Same (c : Char) : SourceBlock → SourceBlock → Prop where
  | nil : Same c [] []
  | cons (d : Char) {b b1 : SourceBlock} : Same c b b1 → Same c (d :: b) (d :: b1)
  | padLeft {b b1 : SourceBlock} : Same c b b1 → Same c (c :: b) b1
  | padRight {b b1 : SourceBlock} : Same c b b1 → Same c b (c :: b1)

/-- Two procedure tables with the same keys, in the same order, whose blocks
are the same but for occurrences of `c`. -/
inductive SameTable (c : Char) : Procedures → Procedures → Prop where
  | nil : SameTable c [] []
  | cons (k : Int) {b b1 : SourceBlock} {t t1 : Procedures} :
      Same c b b1 → SameTable c t t1 → SameTable c ((k, b) :: t) ((k, b1) :: t1)

/-- The state `s` with the procedure table `t`. -/
def State.withTable (s : State) (t : Procedures) : State :=
  { s with procedures := t }

/-- Two states with the same tape, cursor, input, output and allocator, whose
procedure tables are the same but for occurrences of `c` in the blocks. -/
def Alike (c : Char) (s s1 : State) : Prop :=
  ∃ t1, s1 = s.withTable t1 ∧ SameTable c s.procedures t1

/-- Two outcomes of the same kind (a normal return, the same fault, the same
undefined behaviour) with states that are alike. -/
def AlikeOutcome (c : Char) : Outcome → Outcome → Prop
  | .done s, o1 => ∃ s1, o1 = .done s1 ∧ Alike c s s1
  | .fault e s, o1 => ∃ s1, o1 = .fault e s1 ∧ Alike c s s1
  | .undef u s, o1 => ∃ s1, o1 = .undef u s1 ∧ Alike c s s1

/-- A character without a meaning in the language: none of the eleven symbols
`+ - > < . , [ ] ( ) :`. -/
def isComment (c : Char) : Bool :=
  !isInstr c && c != ']' && c != ')'

/-- Two results of the scan for `]` that agree: both fail, or both succeed
with bodies, and with remainders, that are the same but for occurrences of
`c`. -/
def MatchAlike (c : Char) :
    Option (SourceBlock × SourceBlock) → Option (SourceBlock × SourceBlock) → Prop
  | none, none => True
  | some x, some x1 => Same c x.1 x1.1 ∧ Same c x.2 x1.2
  | _, _ => False

/-! ## Unfolding the interpreter -/

theorem interpret_zero (p : SourceBlock) (s : State) : interpret 0 p s = none :=
  Eq.trans rfl rfl

theorem interpret_nil (fuel : Nat) (s : State) : interpret (fuel + 1) [] s = some (.done s) :=
  Eq.trans rfl rfl

theorem loop_zero (p : SourceBlock) (s : State) : loop 0 p s = none :=
  Eq.trans rfl rfl

theorem loop_succ (fuel : Nat) (body : SourceBlock) (s : State) :
    loop (fuel + 1) body s =
      match s.cell with
      | none => some (.undef .cellOutOfRange s)
      | some v =>
        if v = 0 then some (.done s)
        else seq (interpret fuel body s) (loop fuel body) :=
  Eq.trans rfl rfl

theorem interpret_cons (fuel : Nat) (c : Char) (rest : SourceBlock) (s : State) :
    interpret (fuel + 1) (c :: rest) s =
    if c = '+' then (plus s).andThen (interpret fuel rest)
    else if c = '-' then (minus s).andThen (interpret fuel rest)
    else if c = '>' then (right s).andThen (interpret fuel rest)
    else if c = '<' then (left s).andThen (interpret fuel rest)
    else if c = '.' then (put s).andThen (interpret fuel rest)
    else if c = ',' then (get s).andThen (interpret fuel rest)
    else if c = '[' then
      match findMatch 0 rest with
      | none => some (.fault 4 s)
      | some (body, after) =>
        seq (loop fuel body s) (interpret fuel after)
    else if c = '(' then
      match s.cell with
      | none => some (.undef .cellOutOfRange s)
      | some k =>
        let s1 : State := { s with procedures := insert s.procedures k (captured rest) }
        match afterCapture rest with
        | [] => some (.undef .readPastEnd s1)
        | _ :: after => interpret fuel after s1
    else if c = ':' then
      match s.cell with
      | none => some (.undef .cellOutOfRange s)
      | some k =>
        match find s.procedures k with
        | some body =>
          seq (interpret fuel body s) (interpret fuel rest)
        | none => some (.fault 2 s)
    else interpret fuel rest s :=
  Eq.trans rfl rfl
attribute [irreducible] interpret loop

theorem seq_mono {r r1 : Option Outcome} {k k1 : State → Option Outcome} {o : Outcome}
    (hr : ∀ x, r = some x → r1 = some x) (hk : ∀ t x, k t = some x → k1 t = some x)
    (h : seq r k = some o) : seq r1 k1 = some o := by
  unfold seq at h ⊢
  cases hx : r with
  | none => simp [hx] at h
  | some x =>
    rw [hx] at h
    rw [hr x hx]
    cases x with
    | done t => exact hk t o h
    | fault e t => exact h
    | undef u t => exact h

theorem andThen_mono {x : Outcome} {k k1 : State → Option Outcome} {o : Outcome}
    (hk : ∀ t y, k t = some y → k1 t = some y)
    (h : x.andThen k = some o) : x.andThen k1 = some o := by
  cases x with
  | done t => exact hk t o h
  | fault e t => exact h
  | undef u t => exact h

theorem interpret_plus (fuel : Nat) (rest : SourceBlock) (s : State) :
    interpret (fuel + 1) ('+' :: rest) s = (plus s).andThen (interpret fuel rest) := by
  rw [interpret_cons]; rfl

theorem interpret_minus (fuel : Nat) (rest : SourceBlock) (s : State) :
    interpret (fuel + 1) ('-' :: rest) s = (minus s).andThen (interpret fuel rest) := by
  rw [interpret_cons]; rfl

theorem interpret_right (fuel : Nat) (rest : SourceBlock) (s : State) :
    interpret (fuel + 1) ('>' :: rest) s = (right s).andThen (interpret fuel rest) := by
  rw [interpret_cons]; rfl

theorem interpret_left (fuel : Nat) (rest : SourceBlock) (s : State) :
    interpret (fuel + 1) ('<' :: rest) s = (left s).andThen (interpret fuel rest) := by
  rw [interpret_cons]; rfl

theorem interpret_put (fuel : Nat) (rest : SourceBlock) (s : State) :
    interpret (fuel + 1) ('.' :: rest) s = (put s).andThen (interpret fuel rest) := by
  rw [interpret_cons]; rfl

theorem interpret_get (fuel : Nat) (rest : SourceBlock) (s : State) :
    interpret (fuel + 1) (',' :: rest) s = (get s).andThen (interpret fuel rest) := by
  rw [interpret_cons]; rfl

theorem interpret_open (fuel : Nat) (rest : SourceBlock) (s : State) :
    interpret (fuel + 1) ('[' :: rest) s =
      match findMatch 0 rest with
      | none => some (.fault 4 s)
      | some (body, after) => seq (loop fuel body s) (interpret fuel after) := by
  rw [interpret_cons]; rfl

theorem interpret_define (fuel : Nat) (rest : SourceBlock) (s : State) :
    interpret (fuel + 1) ('(' :: rest) s =
      match s.cell with
      | none => some (.undef .cellOutOfRange s)
      | some k =>
        match afterCapture rest with
        | [] => some (.undef .readPastEnd
            { s with procedures := insert s.procedures k (captured rest) })
        | _ :: after =>
          interpret fuel after { s with procedures := insert s.procedures k (captured rest) } := by
  rw [interpret_cons]; rfl

theorem interpret_call (fuel : Nat) (rest : SourceBlock) (s : State) :
    interpret (fuel + 1) (':' :: rest) s =
      match s.cell with
      | none => some (.undef .cellOutOfRange s)
      | some k =>
        match find s.procedures k with
        | some body => seq (interpret fuel body s) (interpret fuel rest)
        | none => some (.fault 2 s) := by
  rw [interpret_cons]; rfl

theorem interpret_skip (fuel : Nat) (c : Char) (rest : SourceBlock) (s : State)
    (hc : isInstr c = false) :
    interpret (fuel + 1) (c :: rest) s = interpret fuel rest s := by
  simp only [isInstr, Bool.or_eq_false_iff, decide_eq_false_iff_not] at hc
  obtain ⟨⟨⟨⟨⟨⟨⟨⟨h1, h2⟩, h3⟩, h4⟩, h5⟩, h6⟩, h7⟩, h8⟩, h9⟩ := hc
  rw [interpret_cons, if_neg h1, if_neg h2, if_neg h3, if_neg h4, if_neg h5, if_neg h6,
    if_neg h7, if_neg h8, if_neg h9]

theorem char_cases (c : Char) :
    c = '+' ∨ c = '-' ∨ c = '>' ∨ c = '<' ∨ c = '.' ∨ c = ',' ∨ c = '[' ∨ c = '(' ∨ c = ':' ∨
      isInstr c = false := by
  by_cases h : isInstr c = false
  · simp [h]
  · simp only [isInstr, Bool.or_eq_false_iff, decide_eq_false_iff_not] at h
    tauto
theorem fuel_succ (n : Nat) :
    (∀ p s o, interpret n p s = some o → interpret (n + 1) p s = some o) ∧
    (∀ p s o, loop n p s = some o → loop (n + 1) p s = some o) := by
  induction n with
  | zero =>
    constructor <;> intro p s o h <;> simp [interpret_zero, loop_zero] at h
  | succ n ih =>
    obtain ⟨ihI, ihL⟩ := ih
    constructor
    · intro p s o h
      cases p with
      | nil => simpa [interpret_nil] using h
      | cons c rest =>
        rcases char_cases c with rfl | rfl | rfl | rfl | rfl | rfl | rfl | rfl | rfl | hc
        · rw [interpret_plus] at h ⊢; exact andThen_mono (ihI rest) h
        · rw [interpret_minus] at h ⊢; exact andThen_mono (ihI rest) h
        · rw [interpret_right] at h ⊢; exact andThen_mono (ihI rest) h
        · rw [interpret_left] at h ⊢; exact andThen_mono (ihI rest) h
        · rw [interpret_put] at h ⊢; exact andThen_mono (ihI rest) h
        · rw [interpret_get] at h ⊢; exact andThen_mono (ihI rest) h
        · rw [interpret_open] at h ⊢
          cases hm : findMatch 0 rest with
          | none => simpa [hm] using h
          | some pr =>
            obtain ⟨body, after⟩ := pr
            simp only [hm] at h ⊢
            exact seq_mono (ihL body s) (ihI after) h
        · rw [interpret_define] at h ⊢
          cases hc : s.cell with
          | none => simpa [hc] using h
          | some k =>
            simp only [hc] at h ⊢
            cases ha : afterCapture rest with
            | nil => simpa [ha] using h
            | cons d after =>
              simp only [ha] at h ⊢
              exact ihI _ _ _ h
        · rw [interpret_call] at h ⊢
          cases hc : s.cell with
          | none => simpa [hc] using h
          | some k =>
            simp only [hc] at h ⊢
            cases hf : find s.procedures k with
            | none => simpa [hf] using h
            | some body =>
              simp only [hf] at h ⊢
              exact seq_mono (ihI body s) (ihI rest) h
        · rw [interpret_skip _ _ _ _ hc] at h ⊢
          exact ihI _ _ _ h
    · intro p s o h
      rw [loop_succ] at h ⊢
      cases hc : s.cell with
      | none => simpa [hc] using h
      | some v =>
        simp only [hc] at h ⊢
        by_cases hv : v = 0
        · simpa [hv] using h
        · rw [if_neg hv] at h ⊢
          exact seq_mono (ihI p s) (ihL p) h

theorem interpret_mono {n m : Nat} (hnm : n ≤ m) {p : SourceBlock} {s : State} {o : Outcome}
    (h : interpret n p s = some o) : interpret m p s = some o := by
  induction hnm with
  | refl => exact h
  | step _ ih => exact (fuel_succ _).1 _ _ _ ih

theorem loop_mono {n m : Nat} (hnm : n ≤ m) {p : SourceBlock} {s : State} {o : Outcome}
    (h : loop n p s = some o) : loop m p s = some o := by
  induction hnm with
  | refl => exact h
  | step _ ih => exact (fuel_succ _).2 _ _ _ ih

/-- A run has one outcome only. -/
theorem runs_unique {p : SourceBlock} {s : State} {o o1 : Outcome}
    (h : Runs p s o) (h1 : Runs p s o1) : o = o1 := by
  obtain ⟨n, hn⟩ := h
  obtain ⟨m, hm⟩ := h1
  have a := interpret_mono (Nat.le_max_left n m) hn
  have b := interpret_mono (Nat.le_max_right n m) hm
  rw [a] at b
  exact Option.some.inj b

theorem loops_unique {p : SourceBlock} {s : State} {o o1 : Outcome}
    (h : Loops p s o) (h1 : Loops p s o1) : o = o1 := by
  obtain ⟨n, hn⟩ := h
  obtain ⟨m, hm⟩ := h1
  have a := loop_mono (Nat.le_max_left n m) hn
  have b := loop_mono (Nat.le_max_right n m) hm
  rw [a] at b
  exact Option.some.inj b

theorem runs_iff_succ (p : SourceBlock) (s : State) (o : Outcome) :
    Runs p s o ↔ ∃ n, interpret (n + 1) p s = some o := by
  constructor
  · rintro ⟨n, hn⟩
    exact ⟨n, interpret_mono (Nat.le_succ n) hn⟩
  · rintro ⟨n, hn⟩
    exact ⟨n + 1, hn⟩

theorem loops_iff_succ (p : SourceBlock) (s : State) (o : Outcome) :
    Loops p s o ↔ ∃ n, loop (n + 1) p s = some o := by
  constructor
  · rintro ⟨n, hn⟩
    exact ⟨n, loop_mono (Nat.le_succ n) hn⟩
  · rintro ⟨n, hn⟩
    exact ⟨n + 1, hn⟩

theorem exists_andThen {B : Nat → State → Option Outcome} (x o : Outcome) :
    (∃ n, x.andThen (B n) = some o) ↔ x.follow (fun t y => ∃ n, B n t = some y) o := by
  cases x with
  | done t => exact Iff.rfl
  | fault e t =>
    constructor
    · rintro ⟨_, h⟩
      exact (Option.some.inj h).symm
    · intro h
      exact ⟨0, by rw [h]; rfl⟩
  | undef u t =>
    constructor
    · rintro ⟨_, h⟩
      exact (Option.some.inj h).symm
    · intro h
      exact ⟨0, by rw [h]; rfl⟩

theorem exists_seq (A : Nat → Option Outcome) (B : Nat → State → Option Outcome)
    (hA : ∀ n m x, n ≤ m → A n = some x → A m = some x)
    (hB : ∀ n m t x, n ≤ m → B n t = some x → B m t = some x) (o : Outcome) :
    (∃ n, seq (A n) (B n) = some o) ↔
      ∃ x, (∃ n, A n = some x) ∧ x.follow (fun t y => ∃ n, B n t = some y) o := by
  constructor
  · rintro ⟨n, hn⟩
    cases hx : A n with
    | none => simp [seq, hx] at hn
    | some x =>
      refine ⟨x, ⟨n, hx⟩, ?_⟩
      rw [hx] at hn
      exact (exists_andThen x o).1 ⟨n, hn⟩
  · rintro ⟨x, ⟨n, hn⟩, hf⟩
    cases x with
    | done t =>
      obtain ⟨m, hm⟩ := hf
      refine ⟨max n m, ?_⟩
      rw [hA n _ _ (Nat.le_max_left n m) hn]
      exact hB m _ _ _ (Nat.le_max_right n m) hm
    | fault e t =>
      refine ⟨n, ?_⟩
      rw [hn, hf]; rfl
    | undef u t =>
      refine ⟨n, ?_⟩
      rw [hn, hf]; rfl

theorem runs_nil (s : State) (o : Outcome) : Runs [] s o ↔ o = .done s := by
  rw [runs_iff_succ]
  simp only [interpret_nil, Option.some.injEq, exists_const]
  exact eq_comm

/-- A character whose case is `x` followed by `break`. -/
theorem runs_step {c : Char} {r : SourceBlock} {s : State} {x : Outcome}
    (h : ∀ n, interpret (n + 1) (c :: r) s = x.andThen (interpret n r)) (o : Outcome) :
    Runs (c :: r) s o ↔ x.follow (Runs r) o := by
  rw [runs_iff_succ]
  simp only [h]
  exact exists_andThen x o

theorem runs_plus (r : SourceBlock) (s : State) (o : Outcome) :
    Runs ('+' :: r) s o ↔ (plus s).follow (Runs r) o :=
  runs_step (fun n => interpret_plus n r s) o

theorem runs_minus (r : SourceBlock) (s : State) (o : Outcome) :
    Runs ('-' :: r) s o ↔ (minus s).follow (Runs r) o :=
  runs_step (fun n => interpret_minus n r s) o

theorem runs_right (r : SourceBlock) (s : State) (o : Outcome) :
    Runs ('>' :: r) s o ↔ (right s).follow (Runs r) o :=
  runs_step (fun n => interpret_right n r s) o

theorem runs_left (r : SourceBlock) (s : State) (o : Outcome) :
    Runs ('<' :: r) s o ↔ (left s).follow (Runs r) o :=
  runs_step (fun n => interpret_left n r s) o

theorem runs_put (r : SourceBlock) (s : State) (o : Outcome) :
    Runs ('.' :: r) s o ↔ (put s).follow (Runs r) o :=
  runs_step (fun n => interpret_put n r s) o

theorem runs_get (r : SourceBlock) (s : State) (o : Outcome) :
    Runs (',' :: r) s o ↔ (get s).follow (Runs r) o :=
  runs_step (fun n => interpret_get n r s) o

theorem runs_skip {c : Char} (hc : isInstr c = false) (r : SourceBlock) (s : State)
    (o : Outcome) : Runs (c :: r) s o ↔ Runs r s o := by
  rw [runs_iff_succ]
  simp only [interpret_skip _ _ _ _ hc]
  exact Iff.rfl

theorem runs_call {r b : SourceBlock} {s : State} {k : Int} (hc : s.cell = some k)
    (hf : find s.procedures k = some b) (o : Outcome) :
    Runs (':' :: r) s o ↔ ∃ x, Runs b s x ∧ x.follow (Runs r) o := by
  rw [runs_iff_succ]
  simp only [interpret_call, hc, hf]
  exact exists_seq (fun n => interpret n b s) (fun n => interpret n r)
    (fun n m x hnm h => interpret_mono hnm h) (fun n m t x hnm h => interpret_mono hnm h) o

theorem runs_call_unknown {r : SourceBlock} {s : State} {k : Int} (hc : s.cell = some k)
    (hf : find s.procedures k = none) (o : Outcome) :
    Runs (':' :: r) s o ↔ o = .fault 2 s := by
  rw [runs_iff_succ]
  simp only [interpret_call, hc, hf, Option.some.injEq, exists_const]
  exact eq_comm

theorem runs_open {rest body after : SourceBlock} (hm : findMatch 0 rest = some (body, after))
    (s : State) (o : Outcome) :
    Runs ('[' :: rest) s o ↔ ∃ y, Loops body s y ∧ y.follow (Runs after) o := by
  rw [runs_iff_succ]
  simp only [interpret_open, hm]
  exact exists_seq (fun n => loop n body s) (fun n => interpret n after)
    (fun n m x hnm h => loop_mono hnm h) (fun n m t x hnm h => interpret_mono hnm h) o

theorem runs_open_unmatched {rest : SourceBlock} (hm : findMatch 0 rest = none)
    (s : State) (o : Outcome) :
    Runs ('[' :: rest) s o ↔ o = .fault 4 s := by
  rw [runs_iff_succ]
  simp only [interpret_open, hm, Option.some.injEq, exists_const]
  exact eq_comm

theorem loops_zero {body : SourceBlock} {s : State} (hc : s.cell = some 0) (o : Outcome) :
    Loops body s o ↔ o = .done s := by
  rw [loops_iff_succ]
  simp only [loop_succ, hc, if_true, Option.some.injEq, exists_const]
  exact eq_comm

theorem loops_nonzero {body : SourceBlock} {s : State} {v : Int} (hc : s.cell = some v)
    (hv : v ≠ 0) (o : Outcome) :
    Loops body s o ↔ ∃ x, Runs body s x ∧ x.follow (Loops body) o := by
  rw [loops_iff_succ]
  simp only [loop_succ, hc, if_neg hv]
  exact exists_seq (fun n => interpret n body s) (fun n => loop n body)
    (fun n m x hnm h => interpret_mono hnm h) (fun n m t x hnm h => loop_mono hnm h) o

theorem runs_define {rest after : SourceBlock} {s : State} {k : Int} {d : Char}
    (hc : s.cell = some k) (ha : afterCapture rest = d :: after) (o : Outcome) :
    Runs ('(' :: rest) s o ↔
      Runs after { s with procedures := insert s.procedures k (captured rest) } o := by
  rw [runs_iff_succ]
  simp only [interpret_define, hc, ha]
  exact Iff.rfl

/-! ## Runs on a longer tape -/

theorem fixed_cell {s : State} (h : Fixed s) : ∃ v, s.cell = some v :=
  ⟨_, List.getElem?_eq_getElem h.1⟩

theorem cell_widen (x : Mem) (a : Nat) (inp : List Int) {s : State} (h : s.mp < s.mem.length) :
    (widen x a inp s).cell = s.cell :=
  List.getElem?_append_left h

theorem setCell_widen (x : Mem) (a : Nat) (inp : List Int) (s : State) (h : s.mp < s.mem.length) (v : Int) :
    (widen x a inp s).setCell v = widen x a inp (s.setCell v) := by
  simp only [widen, State.setCell, List.set_append_left _ _ h]

theorem fixed_setCell (s : State) (h : Fixed s) (v : Int) : Fixed (s.setCell v) := by
  simpa only [Fixed, State.setCell, List.length_set] using h

theorem plus_widen (x : Mem) (a : Nat) (inp : List Int) {s : State} (h : Fixed s) :
    ∃ t, plus s = .done t ∧ Fixed t ∧ plus (widen x a inp s) = .done (widen x a inp t) := by
  obtain ⟨v, hv⟩ := fixed_cell h
  refine ⟨s.setCell (wrapCell (v + 1)), ?_, fixed_setCell s h _, ?_⟩
  · simp only [plus, hv]
  · simp only [plus, cell_widen x a inp h.1, hv, setCell_widen x a inp s h.1]

theorem minus_widen (x : Mem) (a : Nat) (inp : List Int) {s : State} (h : Fixed s) :
    ∃ t, minus s = .done t ∧ Fixed t ∧ minus (widen x a inp s) = .done (widen x a inp t) := by
  obtain ⟨v, hv⟩ := fixed_cell h
  refine ⟨s.setCell (wrapCell (v - 1)), ?_, fixed_setCell s h _, ?_⟩
  · simp only [minus, hv]
  · simp only [minus, cell_widen x a inp h.1, hv, setCell_widen x a inp s h.1]

theorem put_widen (x : Mem) (a : Nat) (inp : List Int) {s : State} (h : Fixed s) :
    ∃ t, put s = .done t ∧ Fixed t ∧ put (widen x a inp s) = .done (widen x a inp t) := by
  obtain ⟨v, hv⟩ := fixed_cell h
  by_cases hw : v = -1
  · refine ⟨s, ?_, h, ?_⟩
    · simp only [put, hv, if_pos hw]
    · simp only [put, cell_widen x a inp h.1, hv, if_pos hw]
  · refine ⟨{ s with output := s.output ++ [v] }, ?_, h, ?_⟩
    · simp only [put, hv, if_neg hw]
    · simp only [put, cell_widen x a inp h.1, hv, if_neg hw]
      rfl

theorem right_widen (x : Mem) (a : Nat) (inp : List Int) {s : State} (h : Fixed s) {o : Outcome}
    (ho : right s = o) (ht : o.tame) :
    ∃ t, o = .done t ∧ Fixed t ∧ right (widen x a inp s) = .done (widen x a inp t) := by
  obtain ⟨h1, h2, h3, h4⟩ := h
  have hmod : (s.mp + 1) % sizeMod = s.mp + 1 := Nat.mod_eq_of_lt (by omega)
  by_cases he : s.mp + 1 = s.mem.length
  · have : right s = .fault 1 { s with mp := (s.mp + 1) % sizeMod } := by
      unfold right
      simp only []
      rw [if_pos (hmod.trans he), if_neg (Nat.not_le.2 h3)]
    rw [this] at ho
    subst ho
    exact absurd rfl ht
  · refine ⟨{ s with mp := s.mp + 1 }, ?_, ?_, ?_⟩
    · rw [← ho]
      unfold right
      simp only []
      rw [hmod, if_neg he]
    · exact ⟨(by show s.mp + 1 < s.mem.length; omega), h2, h3, h4⟩
    · have hne : ¬ (s.mp + 1 = (s.mem ++ x).length) := by
        rw [List.length_append]; omega
      unfold right widen
      simp only []
      rw [hmod, if_neg hne]

theorem left_widen (x : Mem) (a : Nat) (inp : List Int) {s : State} (h : Fixed s) {o : Outcome}
    (ho : left s = o) :
    (∀ t, o = .done t → Fixed t) ∧ left (widen x a inp s) = o.map (widen x a inp) := by
  obtain ⟨h1, h2, h3, h4⟩ := h
  by_cases hc : castInt ((s.mp + sizeMod - 1) % sizeMod) < 0
  · have e1 : left s = .fault 3 { s with mp := (s.mp + sizeMod - 1) % sizeMod } := by
      simp only [left, if_pos hc]
    have e2 : left (widen x a inp s) =
        .fault 3 { widen x a inp s with mp := (s.mp + sizeMod - 1) % sizeMod } := by
      simp only [left, widen, if_pos hc]
    rw [e1] at ho
    subst ho
    refine ⟨fun t ht => (by cases ht), ?_⟩
    rw [e2]; rfl
  · have e1 : left s = .done { s with mp := (s.mp + sizeMod - 1) % sizeMod } := by
      simp only [left, if_neg hc]
    have e2 : left (widen x a inp s) =
        .done { widen x a inp s with mp := (s.mp + sizeMod - 1) % sizeMod } := by
      simp only [left, widen, if_neg hc]
    rw [e1] at ho
    subst ho
    refine ⟨?_, by rw [e2]; rfl⟩
    intro t ht
    cases ht
    have hpos : 0 < s.mp := by
      rcases Nat.eq_zero_or_pos s.mp with h0 | h0
      · exfalso
        apply hc
        rw [h0]
        simp only [sizeMod, castInt, wrapCell]
        norm_num
      · exact h0
    have hm : (s.mp + sizeMod - 1) % sizeMod = s.mp - 1 := by
      have : s.mp + sizeMod - 1 = (s.mp - 1) + sizeMod := by omega
      rw [this, Nat.add_mod_right]
      exact Nat.mod_eq_of_lt (by omega)
    exact ⟨(by show (s.mp + sizeMod - 1) % sizeMod < s.mem.length; rw [hm]; omega), h2, h3, h4⟩

theorem sim_of_done (x : Mem) (a : Nat) (inp : List Int) {y y1 : Outcome}
    (h : ∃ t, y = .done t ∧ Fixed t ∧ y1 = .done (widen x a inp t)) :
    (∀ t, y = .done t → Fixed t) ∧ y1 = y.map (widen x a inp) := by
  obtain ⟨t, rfl, ht, rfl⟩ := h
  refine ⟨?_, rfl⟩
  intro u hu
  cases hu
  exact ht

theorem sim_andThen (x : Mem) (a : Nat) (inp : List Int) {y y1 : Outcome} {k k1 : State → Option Outcome}
    {o : Outcome}
    (hy : y.tame → (∀ t, y = .done t → Fixed t) ∧ y1 = y.map (widen x a inp))
    (hk : ∀ t o, Fixed t → k t = some o → o.tame →
      (∀ u, o = .done u → Fixed u) ∧ k1 (widen x a inp t) = some (o.map (widen x a inp)))
    (h : y.andThen k = some o) (ho : o.tame) :
    (∀ u, o = .done u → Fixed u) ∧ y1.andThen k1 = some (o.map (widen x a inp)) := by
  cases y with
  | done t =>
    obtain ⟨hf, rfl⟩ := hy trivial
    exact hk t o (hf t rfl) h ho
  | fault e t =>
    cases Option.some.inj h
    obtain ⟨_, rfl⟩ := hy ho
    exact ⟨fun u hu => (by cases hu), rfl⟩
  | undef u t =>
    cases Option.some.inj h
    exact absurd ho (by simp [Outcome.tame])

theorem sim_seq (x : Mem) (a : Nat) (inp : List Int) {r r1 : Option Outcome} {k k1 : State → Option Outcome}
    {o : Outcome}
    (hr : ∀ y, r = some y → y.tame →
      (∀ t, y = .done t → Fixed t) ∧ r1 = some (y.map (widen x a inp)))
    (hk : ∀ t o, Fixed t → k t = some o → o.tame →
      (∀ u, o = .done u → Fixed u) ∧ k1 (widen x a inp t) = some (o.map (widen x a inp)))
    (h : seq r k = some o) (ho : o.tame) :
    (∀ u, o = .done u → Fixed u) ∧ seq r1 k1 = some (o.map (widen x a inp)) := by
  cases hy : r with
  | none => simp [seq, hy] at h
  | some y =>
    rw [hy] at h
    have hty : y.tame := by
      cases y with
      | done t => trivial
      | fault e t => cases Option.some.inj h; exact ho
      | undef u t => cases Option.some.inj h; exact ho
    obtain ⟨hf, hr1⟩ := hr y hy hty
    rw [hr1]
    exact sim_andThen x a inp (fun _ => ⟨hf, rfl⟩) hk h ho

theorem findMatch_mem : ∀ (p : SourceBlock) (n : Nat) (b r : SourceBlock),
    findMatch n p = some (b, r) → ∀ c, c ∈ b ∨ c ∈ r → c ∈ p := by
  intro p
  induction p with
  | nil => intro n b r h; simp [findMatch] at h
  | cons d cs ih =>
    intro n b r h c hc
    have key : ∀ m, (findMatch m cs).map (fun q => (d :: q.1, q.2)) = some (b, r) → c ∈ d :: cs := by
      intro m hm
      cases hq : findMatch m cs with
      | none => simp [hq] at hm
      | some q =>
        obtain ⟨q1, q2⟩ := q
        rw [hq] at hm
        simp only [Option.map_some', Option.some.injEq, Prod.mk.injEq] at hm
        obtain ⟨rfl, rfl⟩ := hm
        rcases hc with hc | hc
        · rcases List.mem_cons.1 hc with rfl | hc
          · exact List.mem_cons_self _ _
          · exact List.mem_cons_of_mem _ (ih m q1 q2 hq c (Or.inl hc))
        · exact List.mem_cons_of_mem _ (ih m q1 q2 hq c (Or.inr hc))
    rw [findMatch] at h
    by_cases h1 : d = '['
    · rw [if_pos h1] at h
      exact key _ h
    · rw [if_neg h1] at h
      by_cases h2 : d = ']'
      · rw [if_pos h2] at h
        by_cases h3 : n ≠ 0
        · rw [if_pos h3] at h
          exact key _ h
        · rw [if_neg h3] at h
          simp only [Option.some.injEq, Prod.mk.injEq] at h
          obtain ⟨rfl, rfl⟩ := h
          rcases hc with hc | hc
          · cases hc
          · exact List.mem_cons_of_mem _ hc
      · rw [if_neg h2] at h
        exact key _ h

/-- What the scan returns is a split of the range at one of its `]`. -/
theorem findMatch_split : ∀ (p : SourceBlock) (n : Nat) (b r : SourceBlock),
    findMatch n p = some (b, r) → p = b ++ ']' :: r := by
  intro p
  induction p with
  | nil => intro n b r h; simp [findMatch] at h
  | cons d cs ih =>
    intro n b r h
    have key : ∀ m, (findMatch m cs).map (fun q => (d :: q.1, q.2)) = some (b, r) →
        d :: cs = b ++ ']' :: r := by
      intro m hm
      cases hq : findMatch m cs with
      | none => simp [hq] at hm
      | some q =>
        obtain ⟨q1, q2⟩ := q
        rw [hq] at hm
        simp only [Option.map_some', Option.some.injEq, Prod.mk.injEq] at hm
        obtain ⟨rfl, rfl⟩ := hm
        rw [ih m q1 q2 hq]
        rfl
    rw [findMatch] at h
    by_cases h1 : d = '['
    · rw [if_pos h1] at h
      exact key _ h
    · rw [if_neg h1] at h
      by_cases h2 : d = ']'
      · rw [if_pos h2] at h
        by_cases h3 : n ≠ 0
        · rw [if_pos h3] at h
          exact key _ h
        · rw [if_neg h3] at h
          simp only [Option.some.injEq, Prod.mk.injEq] at h
          obtain ⟨rfl, rfl⟩ := h
          rw [h2]
          rfl
      · rw [if_neg h2] at h
        exact key _ h

theorem captured_mem {rest : SourceBlock} {c : Char} (h : c ∈ captured rest) : c ∈ rest :=
  (List.takeWhile_sublist _).subset h

theorem afterCapture_mem {rest after : SourceBlock} {c d : Char}
    (ha : afterCapture rest = d :: after) (h : c ∈ after) : c ∈ rest := by
  have : c ∈ afterCapture rest := by rw [ha]; exact List.mem_cons_of_mem _ h
  exact (List.dropWhile_sublist _).subset this

theorem find_append_single (t : Procedures) (k : Int) (b : SourceBlock) (k1 : Int) :
    find (t ++ [(k, b)]) k1 =
      match find t k1 with
      | some b1 => some b1
      | none => if k1 = k then some b else none := by
  induction t with
  | nil => simp [find]
  | cons kb t ih =>
    obtain ⟨k2, b2⟩ := kb
    simp only [List.cons_append, find]
    by_cases h : k1 = k2
    · simp [h]
    · simp only [if_neg h]
      exact ih

theorem find_insert (t : Procedures) (k : Int) (b : SourceBlock) (k1 : Int) :
    find (insert t k b) k1 =
      match find t k1 with
      | some b1 => some b1
      | none => if k1 = k then some b else none := by
  unfold insert
  cases hk : find t k with
  | some b0 =>
    simp only
    cases h1 : find t k1 with
    | some b1 => rfl
    | none =>
      simp only
      by_cases e : k1 = k
      · rw [e, hk] at h1; cases h1
      · rw [if_neg e]
  | none => exact find_append_single t k b k1

theorem fixed_define {s : State} (h : Fixed s) (k : Int) {b : SourceBlock} (hb : ',' ∉ b) :
    Fixed { s with procedures := insert s.procedures k b } := by
  obtain ⟨h1, h2, h3, h4⟩ := h
  refine ⟨h1, h2, h3, ?_⟩
  intro k1 b1 hf
  have hf1 : find (insert s.procedures k b) k1 = some b1 := hf
  rw [find_insert] at hf1
  cases h5 : find s.procedures k1 with
  | some b2 =>
    rw [h5] at hf1
    cases Option.some.inj hf1
    exact h4 k1 _ h5
  | none =>
    rw [h5] at hf1
    by_cases e : k1 = k
    · simp only [if_pos e, Option.some.injEq] at hf1
      rw [← hf1]; exact hb
    · simp [if_neg e] at hf1

/-- A run on a tape that cannot grow, of a program that does not read, ending
otherwise than by running out of memory, is also a run on every longer tape
and with any input: the added cells and the input are not touched. -/
theorem widen_sim (x : Mem) (a : Nat) (inp : List Int) (n : Nat) :
    (∀ p s o, Fixed s → ',' ∉ p → interpret n p s = some o → o.tame →
      (∀ u, o = .done u → Fixed u) ∧
        interpret n p (widen x a inp s) = some (o.map (widen x a inp))) ∧
    (∀ p s o, Fixed s → ',' ∉ p → loop n p s = some o → o.tame →
      (∀ u, o = .done u → Fixed u) ∧
        loop n p (widen x a inp s) = some (o.map (widen x a inp))) := by
  induction n with
  | zero =>
    constructor <;> intro p s o _ _ h <;> simp [interpret_zero, loop_zero] at h
  | succ n ih =>
    obtain ⟨ihI, ihL⟩ := ih
    constructor
    · intro p s o hs hp h ho
      cases p with
      | nil =>
        rw [interpret_nil] at h ⊢
        cases Option.some.inj h
        exact ⟨fun u hu => (by cases hu; exact hs), rfl⟩
      | cons c rest =>
        have hr : ',' ∉ rest := fun hm => hp (List.mem_cons_of_mem _ hm)
        have ihr := fun t o (ht : Fixed t) => ihI rest t o ht hr
        rcases char_cases c with rfl | rfl | rfl | rfl | rfl | rfl | rfl | rfl | rfl | hc
        · rw [interpret_plus] at h ⊢
          refine sim_andThen x a inp (fun _ => sim_of_done x a inp ?_) ihr h ho
          obtain ⟨t, h1, h2, h3⟩ := plus_widen x a inp hs
          exact ⟨t, h1, h2, h3⟩
        · rw [interpret_minus] at h ⊢
          refine sim_andThen x a inp (fun _ => sim_of_done x a inp ?_) ihr h ho
          obtain ⟨t, h1, h2, h3⟩ := minus_widen x a inp hs
          exact ⟨t, h1, h2, h3⟩
        · rw [interpret_right] at h ⊢
          refine sim_andThen x a inp (fun hy => sim_of_done x a inp ?_) ihr h ho
          obtain ⟨t, h1, h2, h3⟩ := right_widen x a inp hs rfl hy
          exact ⟨t, h1, h2, h3⟩
        · rw [interpret_left] at h ⊢
          exact sim_andThen x a inp (fun _ => left_widen x a inp hs rfl) ihr h ho
        · rw [interpret_put] at h ⊢
          refine sim_andThen x a inp (fun _ => sim_of_done x a inp ?_) ihr h ho
          obtain ⟨t, h1, h2, h3⟩ := put_widen x a inp hs
          exact ⟨t, h1, h2, h3⟩
        · exact absurd (List.mem_cons_self _ _) hp
        · rw [interpret_open] at h ⊢
          cases hm : findMatch 0 rest with
          | none =>
            simp only [hm] at h ⊢
            cases Option.some.inj h
            exact ⟨fun u hu => (by cases hu), rfl⟩
          | some pr =>
            obtain ⟨body, after⟩ := pr
            simp only [hm] at h ⊢
            have hb : ',' ∉ body := fun hx => hr (findMatch_mem _ _ _ _ hm _ (Or.inl hx))
            have hf : ',' ∉ after := fun hx => hr (findMatch_mem _ _ _ _ hm _ (Or.inr hx))
            exact sim_seq x a inp (fun y hy hty => ihL body s y hs hb hy hty)
              (fun t o ht => ihI after t o ht hf) h ho
        · rw [interpret_define] at h ⊢
          obtain ⟨v, hv⟩ := fixed_cell hs
          rw [cell_widen x a inp hs.1]
          simp only [hv] at h ⊢
          cases ha : afterCapture rest with
          | nil =>
            simp only [ha] at h
            cases Option.some.inj h
            exact absurd ho (by simp [Outcome.tame])
          | cons d after =>
            simp only [ha] at h ⊢
            have hb : ',' ∉ captured rest := fun hx => hr (captured_mem hx)
            have hf : ',' ∉ after := fun hx => hr (afterCapture_mem ha hx)
            exact ihI after { s with procedures := insert s.procedures v (captured rest) } o
              (fixed_define hs v hb) hf h ho
        · rw [interpret_call] at h ⊢
          obtain ⟨v, hv⟩ := fixed_cell hs
          rw [cell_widen x a inp hs.1]
          have hp1 : (widen x a inp s).procedures = s.procedures := rfl
          simp only [hv, hp1] at h ⊢
          cases hf : find s.procedures v with
          | none =>
            simp only [hf] at h ⊢
            cases Option.some.inj h
            exact ⟨fun u hu => (by cases hu), rfl⟩
          | some body =>
            simp only [hf] at h ⊢
            exact sim_seq x a inp (fun y hy hty => ihI body s y hs (hs.2.2.2 v body hf) hy hty)
              ihr h ho
        · rw [interpret_skip _ _ _ _ hc] at h ⊢
          exact ihI rest s o hs hr h ho
    · intro p s o hs hp h ho
      rw [loop_succ] at h ⊢
      obtain ⟨v, hv⟩ := fixed_cell hs
      rw [cell_widen x a inp hs.1]
      simp only [hv] at h ⊢
      by_cases h0 : v = 0
      · rw [if_pos h0] at h ⊢
        cases Option.some.inj h
        exact ⟨fun u hu => (by cases hu; exact hs), rfl⟩
      · rw [if_neg h0] at h ⊢
        exact sim_seq x a inp (fun y hy hty => ihI p s y hs hp hy hty)
          (fun t o ht => ihL p t o ht hp) h ho

/-! ## The program of the header comment -/

theorem combined_small :
    interpret 200 combined smallTape =
      some (.done { smallTape with
        mem := [3, 0, 0, 8, 0, 0, 0, 0], mp := 3, procedures := headerProcedures }) := by
  decide!

theorem headerProgram_small :
    interpret 700 headerProgram smallTape =
      some (.done { smallTape with
        mem := [3, 0, 0, 0, 0, 56, 0, 0], mp := 5, procedures := headerProcedures,
        output := [56] }) := by
  decide!

theorem fixed_smallTape : Fixed smallTape := by
  refine ⟨by decide, by decide, by decide, ?_⟩
  intro k b h
  cases h

theorem initial_eq_widen (inp : List Int) (a : Nat) :
    initial inp a = widen (List.replicate 29992 0) a inp smallTape := by
  simp only [initial, widen, smallTape, List.append_replicate_replicate]

/-- A terminating run of a program without `','` from `smallTape` is a run from
the initial state of `main`, whatever the input and the allocator. -/
theorem runs_initial_of_small {n : Nat} {p : SourceBlock} {t : State} (hp : ',' ∉ p)
    (h : interpret n p smallTape = some (.done t)) (inp : List Int) (a : Nat) :
    Runs p (initial inp a) (.done (widen (List.replicate 29992 0) a inp t)) := by
  rw [initial_eq_widen]
  exact ⟨n, ((widen_sim _ a inp n).1 p smallTape _ fixed_smallTape hp h trivial).2⟩

theorem combined_no_read : ',' ∉ combined := by decide

theorem headerProgram_no_read : ',' ∉ headerProgram := by decide

/-- C1, as stated, fails: the run of the program of the claim from the initial
state does not end with the output `[56]`. -/
theorem C1_counterexample :
    ¬ ∃ s, Runs combined (initial [] 0) (.done s) ∧ s.output = [56] := by
  rintro ⟨s, hs, hout⟩
  have h := runs_initial_of_small combined_no_read combined_small [] 0
  cases runs_unique hs h
  exact absurd hout (by decide)

/-- C1, amended: from the initial state of `main`, with any input and any
allocator, the program of the claim returns normally with no output at all,
the cursor on cell 3 and that cell holding 8; the program of the header
comment, which has the further line `>+++:`, returns normally and its output
is the single unit 56. -/
theorem C1_header_program (inp : List Int) (a : Nat) :
    (∃ s, Runs combined (initial inp a) (.done s) ∧ s.output = [] ∧ s.mp = 3 ∧
      s.cell = some 8 ∧ s.procedures = headerProcedures) ∧
    (∃ t, Runs headerProgram (initial inp a) (.done t) ∧ t.output = [56]) := by
  refine ⟨⟨_, runs_initial_of_small combined_no_read combined_small inp a, rfl, rfl, ?_, rfl⟩,
    ⟨_, runs_initial_of_small headerProgram_no_read headerProgram_small inp a, rfl⟩⟩
  rw [cell_widen _ a inp (by decide)]
  decide

/-! ## Procedures -/

theorem captured_append {b : SourceBlock} (hb : ')' ∉ b) (r : SourceBlock) :
    captured (b ++ ')' :: r) = b := by
  unfold captured
  rw [List.takeWhile_append_of_pos]
  · simp [List.takeWhile_cons]
  · intro c hc
    have : c ≠ ')' := fun e => hb (e ▸ hc)
    simpa using this

theorem afterCapture_append {b : SourceBlock} (hb : ')' ∉ b) (r : SourceBlock) :
    afterCapture (b ++ ')' :: r) = ')' :: r := by
  unfold afterCapture
  rw [List.dropWhile_append_of_pos]
  · simp [List.dropWhile_cons]
  · intro c hc
    have : c ≠ ')' := fun e => hb (e ▸ hc)
    simpa using this

theorem insert_of_find {t : Procedures} {k : Int} {b : SourceBlock} (h : find t k = some b)
    (b2 : SourceBlock) : insert t k b2 = t := by
  simp only [insert, h]

theorem runs_definition {b : SourceBlock} (hb : ')' ∉ b) {s : State} {k : Int}
    (hc : s.cell = some k) (r : SourceBlock) (o : Outcome) :
    Runs ('(' :: (b ++ ')' :: r)) s o ↔
      Runs r { s with procedures := insert s.procedures k b } o := by
  rw [runs_define hc (afterCapture_append hb r), captured_append hb r]

/-- C2: in a state whose procedure table binds the value `k` of the current
cell to the block `b`, the instruction `:` runs `b` once, from that very state,
and then the dispatch goes on with the characters `r` after the `:`; an
outcome of `b` other than a normal return is the outcome of the whole.  At
the level of fuel, `:` is the sequence of `interpret` over `b` and `interpret`
over `r`. -/
theorem C2_call_runs_body (s : State) (k : Int) (b r : SourceBlock) (o : Outcome)
    (hc : s.cell = some k) (hf : find s.procedures k = some b) :
    (Runs (':' :: r) s o ↔ ∃ x, Runs b s x ∧ x.follow (Runs r) o) ∧
    ∀ n, interpret (n + 1) (':' :: r) s = seq (interpret n b s) (interpret n r) := by
  refine ⟨runs_call hc hf o, fun n => ?_⟩
  simp only [interpret_call, hc, hf]

theorem C2_call_runs_body_witness :
    oneProcedure.cell = some 1 ∧ find oneProcedure.procedures 1 = some ['[', '-', ']'] ∧
    ((Runs (':' :: ['+']) oneProcedure (.done blank) ↔
        ∃ x, Runs ['[', '-', ']'] oneProcedure x ∧ x.follow (Runs ['+']) (.done blank)) ∧
      ∀ n, interpret (n + 1) (':' :: ['+']) oneProcedure =
        seq (interpret n ['[', '-', ']'] oneProcedure) (interpret n ['+'])) :=
  ⟨by decide, by decide,
    C2_call_runs_body oneProcedure 1 ['[', '-', ']'] ['+'] (.done blank) (by decide) (by decide)⟩

/-- C3: in a state whose procedure table has no entry for the value `k` of the
current cell, the instruction `:` throws 2, and the state at the throw is the
state before the `:`, whatever characters `r` follow; no other outcome is
possible. -/
theorem C3_unknown_procedure (s : State) (k : Int) (r : SourceBlock) (o : Outcome)
    (hc : s.cell = some k) (hf : find s.procedures k = none) :
    Runs (':' :: r) s o ↔ o = .fault 2 s :=
  runs_call_unknown hc hf o

theorem C3_unknown_procedure_witness :
    blank.cell = some 0 ∧ find blank.procedures 0 = none ∧
    (Runs (':' :: ['+', '.']) blank (.fault 2 blank) ↔ Outcome.fault 2 blank = .fault 2 blank) :=
  ⟨by decide, by decide,
    C3_unknown_procedure blank 0 ['+', '.'] (.fault 2 blank) (by decide) (by decide)⟩

/-- C4: when the value `k` of the current cell is already bound to `b`, a
further definition `(b2)` leaves the procedure table, and the whole state, as
they were: the run of `(b2)r` is the run of `r`, and a `:` right after the
definition runs `b`. -/
theorem C4_first_definition_wins (s : State) (k : Int) (b b2 : SourceBlock)
    (hc : s.cell = some k) (hf : find s.procedures k = some b) (hb : ')' ∉ b2) :
    insert s.procedures k b2 = s.procedures ∧
    (∀ r o, Runs ('(' :: (b2 ++ ')' :: r)) s o ↔ Runs r s o) ∧
    (∀ r o, Runs ('(' :: (b2 ++ ')' :: ':' :: r)) s o ↔
      ∃ x, Runs b s x ∧ x.follow (Runs r) o) := by
  have key : ∀ r o, Runs ('(' :: (b2 ++ ')' :: r)) s o ↔ Runs r s o := by
    intro r o
    rw [runs_definition hb hc, insert_of_find hf]
  exact ⟨insert_of_find hf b2, key, fun r o => (key _ o).trans (runs_call hc hf o)⟩

theorem C4_first_definition_wins_witness :
    oneProcedure.cell = some 1 ∧ find oneProcedure.procedures 1 = some ['[', '-', ']'] ∧
    ')' ∉ ['+', '+'] ∧
    (insert oneProcedure.procedures 1 ['+', '+'] = oneProcedure.procedures ∧
      (∀ r o, Runs ('(' :: (['+', '+'] ++ ')' :: r)) oneProcedure o ↔ Runs r oneProcedure o) ∧
      (∀ r o, Runs ('(' :: (['+', '+'] ++ ')' :: ':' :: r)) oneProcedure o ↔
        ∃ x, Runs ['[', '-', ']'] oneProcedure x ∧ x.follow (Runs r) o)) :=
  ⟨by decide, by decide, by decide,
    C4_first_definition_wins oneProcedure 1 ['[', '-', ']'] ['+', '+'] (by decide) (by decide)
      (by decide)⟩

/-- C5: when the value `v` of the current cell is not yet a key, the definition
`(b)` with no `)` in `b` binds `v` to exactly `b`, keeps every other binding,
changes no other part of the state and runs nothing: the run of `(b)r` from
`s` is the run of `r` from `s` with the table so extended. -/
theorem C5_definition_captures (s : State) (v : Int) (b : SourceBlock)
    (hc : s.cell = some v) (hf : find s.procedures v = none) (hb : ')' ∉ b) :
    find (insert s.procedures v b) v = some b ∧
    (∀ k, k ≠ v → find (insert s.procedures v b) k = find s.procedures k) ∧
    (∀ r o, Runs ('(' :: (b ++ ')' :: r)) s o ↔
      Runs r { mem := s.mem, mp := s.mp, procedures := insert s.procedures v b,
               input := s.input, output := s.output, avail := s.avail } o) := by
  refine ⟨?_, ?_, fun r o => runs_definition hb hc r o⟩
  · rw [find_insert, hf]
    simp
  · intro k hk
    rw [find_insert]
    cases find s.procedures k with
    | some b1 => rfl
    | none => simp [hk]

theorem C5_definition_captures_witness :
    blank.cell = some 0 ∧ find blank.procedures 0 = none ∧ ')' ∉ ['(', '[', ']', ':', 'x'] ∧
    (find (insert blank.procedures 0 ['(', '[', ']', ':', 'x']) 0 = some ['(', '[', ']', ':', 'x'] ∧
     (∀ k, k ≠ 0 → find (insert blank.procedures 0 ['(', '[', ']', ':', 'x']) k =
        find blank.procedures k) ∧
     (∀ r o, Runs ('(' :: (['(', '[', ']', ':', 'x'] ++ ')' :: r)) blank o ↔
        Runs r { mem := blank.mem, mp := blank.mp,
                 procedures := insert blank.procedures 0 ['(', '[', ']', ':', 'x'],
                 input := blank.input, output := blank.output, avail := blank.avail } o)) :=
  ⟨by decide, by decide, by decide,
    C5_definition_captures blank 0 ['(', '[', ']', ':', 'x'] (by decide) (by decide) (by decide)⟩

/-! ## Loops -/

theorem runs_loop_zero {rest body after : SourceBlock}
    (hm : findMatch 0 rest = some (body, after)) {s : State} (hc : s.cell = some 0)
    (o : Outcome) : Runs ('[' :: rest) s o ↔ Runs after s o := by
  rw [runs_open hm]
  constructor
  · rintro ⟨y, hy, hf⟩
    rw [(loops_zero hc y).1 hy] at hf
    exact hf
  · intro h
    exact ⟨.done s, (loops_zero hc _).2 rfl, h⟩

theorem runs_loop_nonzero {rest body after : SourceBlock}
    (hm : findMatch 0 rest = some (body, after)) {s : State} {v : Int} (hc : s.cell = some v)
    (hv : v ≠ 0) (o : Outcome) :
    Runs ('[' :: rest) s o ↔ ∃ x, Runs body s x ∧ x.follow (Runs ('[' :: rest)) o := by
  rw [runs_open hm]
  constructor
  · rintro ⟨y, hy, hf⟩
    obtain ⟨x, hx, hxy⟩ := (loops_nonzero hc hv y).1 hy
    refine ⟨x, hx, ?_⟩
    cases x with
    | done t => exact (runs_open hm t o).2 ⟨y, hxy, hf⟩
    | fault e t =>
      have hy1 : y = .fault e t := hxy
      rw [hy1] at hf
      exact hf
    | undef u t =>
      have hy1 : y = .undef u t := hxy
      rw [hy1] at hf
      exact hf
  · rintro ⟨x, hx, hf⟩
    cases x with
    | done t =>
      obtain ⟨y, hy, hyo⟩ := (runs_open hm t o).1 hf
      exact ⟨y, (loops_nonzero hc hv y).2 ⟨.done t, hx, hy⟩, hyo⟩
    | fault e t =>
      exact ⟨.fault e t, (loops_nonzero hc hv _).2 ⟨.fault e t, hx, rfl⟩, hf⟩
    | undef u t =>
      exact ⟨.undef u t, (loops_nonzero hc hv _).2 ⟨.undef u t, hx, rfl⟩, hf⟩

theorem left_at_zero (s : State) (h : s.mp = 0) :
    left s = .fault 3 { s with mp := 18446744073709551615 } := by
  have e : (s.mp + sizeMod - 1) % sizeMod = 18446744073709551615 := by
    rw [h]; decide
  unfold left
  simp only [e]
  rw [if_pos (by decide)]

theorem runs_left_at_zero (s : State) (h : s.mp = 0) (r : SourceBlock) (o : Outcome) :
    Runs ('<' :: r) s o ↔ o = .fault 3 { s with mp := 18446744073709551615 } := by
  rw [runs_left, left_at_zero s h]
  exact Iff.rfl

theorem diagnostic_wrapped (s : State) (h : s.mp = 18446744073709551615) :
    diagnostic 3 s = "Error 3, cell 4294967295\n" := by
  unfold diagnostic
  rw [h]
  decide

theorem main_left (text : List Char) (ht : (text.filter fun ch => !isspace ch) = ['<'])
    (inp : List Int) (a : Nat) :
    parse 2 text (initial inp a) =
      some (.fault 3 { initial inp a with mp := 18446744073709551615 }) := by
  unfold parse
  rw [ht, interpret_left, left_at_zero _ rfl]
  rfl

theorem finish_fault (e : Nat) (s : State) :
    finish (some (.fault e s)) = some (.exit s.output (diagnostic e s) e) := rfl

/-- C8, as stated, fails: the program `<`, read from standard input, ends with
exit status 3, but the text on standard error is `Error 3, cell 4294967295`
and not `Error 3, cell 0`. -/
theorem C8_counterexample :
    main 2 (.stdin ['<']) 0 = some (.exit [] "Error 3, cell 4294967295\n" 3) ∧
    main 2 (.stdin ['<']) 0 ≠ some (.exit [] "Error 3, cell 0\n" 3) := by
  decide!

/-- C8, amended: with the cursor on cell 0, the instruction `<` throws 3 after
the cursor has been decremented, so the state at the throw has the cursor at
the largest value of `size_t`; no later instruction runs.  The diagnostic
prints the low 32 bits of that cursor: the text is `Error 3, cell 4294967295`
and the exit status is 3.  This is what `main` does with the program `<`,
given as a file or on standard input, with any input and any allocator. -/
theorem C8_left_at_zero (s : State) (h : s.mp = 0) :
    (∀ r o, Runs ('<' :: r) s o ↔ o = .fault 3 { s with mp := 18446744073709551615 }) ∧
    diagnostic 3 { s with mp := 18446744073709551615 } = "Error 3, cell 4294967295\n" ∧
    (∀ inp a, main 2 (.file (some ['<']) inp) a =
      some (.exit [] "Error 3, cell 4294967295\n" 3)) ∧
    (∀ a, main 2 (.stdin ['<']) a = some (.exit [] "Error 3, cell 4294967295\n" 3)) := by
  refine ⟨runs_left_at_zero s h, diagnostic_wrapped _ rfl, ?_, ?_⟩
  · intro inp a
    unfold main
    simp only []
    rw [main_left ['<'] (by decide) inp a, finish_fault, diagnostic_wrapped _ rfl]
    rfl
  · intro a
    unfold main
    simp only []
    rw [main_left ['<'] (by decide) [] a, finish_fault, diagnostic_wrapped _ rfl]
    rfl

theorem C8_left_at_zero_witness :
    blank.mp = 0 ∧
    ((∀ r o, Runs ('<' :: r) blank o ↔ o = .fault 3 { blank with mp := 18446744073709551615 }) ∧
    diagnostic 3 { blank with mp := 18446744073709551615 } = "Error 3, cell 4294967295\n" ∧
    (∀ inp a, main 2 (.file (some ['<']) inp) a =
      some (.exit [] "Error 3, cell 4294967295\n" 3)) ∧
    (∀ a, main 2 (.stdin ['<']) a = some (.exit [] "Error 3, cell 4294967295\n" 3))) :=
  ⟨rfl, C8_left_at_zero blank rfl⟩

/-! ## Counting the passes of a loop -/

theorem loops_of_passes {body : SourceBlock} :
    ∀ (k : Nat) (s t : State), Passes body k s t → t.cell = some 0 →
      Loops body s (.done t) := by
  intro k
  induction k with
  | zero =>
    intro s t h ht
    cases (show s = t from h)
    exact (loops_zero ht _).2 rfl
  | succ k ih =>
    rintro s t ⟨v, s1, hc, hv, hr, hp⟩ ht
    exact (loops_nonzero hc hv _).2 ⟨.done s1, hr, ih s1 t hp ht⟩

theorem passes_unique {body : SourceBlock} :
    ∀ (k k1 : Nat) (s t t1 : State), Passes body k s t → t.cell = some 0 →
      Passes body k1 s t1 → t1.cell = some 0 → k = k1 := by
  intro k
  induction k with
  | zero =>
    intro k1 s t t1 h ht h1 _
    cases (show s = t from h)
    cases k1 with
    | zero => rfl
    | succ k1 =>
      obtain ⟨v, _, hc, hv, _, _⟩ := h1
      rw [ht] at hc
      exact absurd (Option.some.inj hc).symm hv
  | succ k ih =>
    rintro k1 s t t1 ⟨v, s1, hc, hv, hr, hp⟩ ht h1 ht1
    cases k1 with
    | zero =>
      cases (show s = t1 from h1)
      rw [ht1] at hc
      exact absurd (Option.some.inj hc).symm hv
    | succ k1 =>
      obtain ⟨_, s2, _, _, hr2, hp2⟩ := h1
      cases runs_unique hr hr2
      rw [ih k1 s1 t t1 hp ht hp2 ht1]

theorem list_set_self : ∀ (l : List Int) (i : Nat) (c : Int), l[i]? = some c → l.set i c = l := by
  intro l
  induction l with
  | nil => intro i c h; simp at h
  | cons a l ih =>
    intro i c h
    cases i with
    | zero =>
      simp only [List.getElem?_cons_zero, Option.some.injEq] at h
      rw [List.set_cons_zero, h]
    | succ i =>
      simp only [List.getElem?_cons_succ] at h
      rw [List.set_cons_succ, ih i c h]

theorem setCell_self {s : State} {c : Int} (h : s.cell = some c) : s.setCell c = s := by
  simp only [State.setCell, list_set_self s.mem s.mp c h]

theorem cell_setCell {s : State} {c : Int} (h : s.cell = some c) (v : Int) :
    (s.setCell v).cell = some v := by
  obtain ⟨hlt, _⟩ := List.getElem?_eq_some.1 h
  exact List.getElem?_set_self hlt

theorem setCell_setCell (s : State) (v w : Int) : (s.setCell v).setCell w = s.setCell w := by
  simp only [State.setCell, List.set_set]

theorem runs_single_minus {s : State} {c : Int} (h : s.cell = some c) :
    Runs ['-'] s (.done (s.setCell (wrapCell (c - 1)))) := by
  rw [runs_minus]
  simp only [minus, h, Outcome.follow]
  exact (runs_nil _ _).2 rfl

theorem wrapCell_wrapCell_sub (c : Int) (j : Int) :
    wrapCell (wrapCell c - j) = wrapCell (c - j) := by
  unfold wrapCell
  omega

/-- The pass `-` repeated `k` times on a cell holding `c`, none of the values
met on the way being 0. -/
theorem passes_minus :
    ∀ (k : Nat) (s : State) (c : Int), s.cell = some c → wrapCell c = c →
      (∀ j : Nat, j < k → wrapCell (c - j) ≠ 0) →
      Passes ['-'] k s (s.setCell (wrapCell (c - k))) := by
  intro k
  induction k with
  | zero =>
    intro s c hc hr _
    show s = s.setCell (wrapCell (c - ((0 : Nat) : Int)))
    rw [Int.ofNat_zero, Int.sub_zero, hr, setCell_self hc]
  | succ k ih =>
    intro s c hc hr hj
    have h0 : c ≠ 0 := by
      have := hj 0 (Nat.succ_pos k)
      rwa [Int.ofNat_zero, Int.sub_zero, hr] at this
    refine ⟨c, s.setCell (wrapCell (c - 1)), hc, h0, runs_single_minus hc, ?_⟩
    have step := ih (s.setCell (wrapCell (c - 1))) (wrapCell (c - 1)) (cell_setCell hc _)
      (by unfold wrapCell; omega)
      (by
        intro j hjk
        have := hj (j + 1) (Nat.succ_lt_succ hjk)
        rw [wrapCell_wrapCell_sub]
        have e : c - 1 - (j : Int) = c - ((j + 1 : Nat) : Int) := by push_cast; ring
        rw [e]
        exact this)
    rw [setCell_setCell, wrapCell_wrapCell_sub] at step
    have e : c - 1 - (k : Int) = c - ((k + 1 : Nat) : Int) := by push_cast; ring
    rw [e] at step
    exact step

theorem runs_clear {s t : State} (h : Loops ['-'] s (.done t)) :
    Runs ['[', '-', ']'] s (.done t) :=
  (runs_open (show findMatch 0 ['-', ']'] = some (['-'], []) by decide) s _).2
    ⟨.done t, h, (runs_nil t _).2 rfl⟩

/-- C9, as stated, fails for a negative cell value: from a cell holding -1 the
loop `[-]` makes 4294967295 passes before the cell is 0, and no number of
passes equals the cell value -1. -/
theorem C9_counterexample :
    minusOne.cell = some (-1) ∧
    Passes ['-'] 4294967295 minusOne (minusOne.setCell 0) ∧
    (minusOne.setCell 0).cell = some 0 ∧
    ¬ ∃ k : Nat, (k : Int) = -1 ∧ ∃ t, Passes ['-'] k minusOne t ∧ t.cell = some 0 := by
  refine ⟨by decide, ?_, by decide, ?_⟩
  · have h := passes_minus 4294967295 minusOne (-1) (by decide) (by decide)
      (by intro j hj; unfold wrapCell; omega)
    have e : wrapCell (-1 - ((4294967295 : Nat) : Int)) = 0 := by decide
    rw [e] at h
    exact h
  · rintro ⟨k, hk, _⟩
    omega

/-- C9, amended: for every value `v` of the 32 bit cell under the cursor, the
program `[-]` returns normally with that cell at 0 and the cursor, every other
cell and the procedure table unchanged, after exactly `v mod 2^32` passes of
the body; this number is `v` when `v` is not negative (and `v + 2^32` when it
is, the cell wrapping around). -/
theorem C9_clear_loop (s : State) (v : Int) (hc : s.cell = some v) (hr : wrapCell v = v) :
    Runs ['[', '-', ']'] s (.done (s.setCell 0)) ∧
    Passes ['-'] (v % 4294967296).toNat s (s.setCell 0) ∧
    (∀ k t, Passes ['-'] k s t → t.cell = some 0 → k = (v % 4294967296).toNat) ∧
    (0 ≤ v → ((v % 4294967296).toNat : Int) = v) ∧
    (s.setCell 0).cell = some 0 ∧ (s.setCell 0).mp = s.mp ∧
    (s.setCell 0).procedures = s.procedures ∧
    ∀ i, i ≠ s.mp → (s.setCell 0).mem[i]? = s.mem[i]? := by
  have hK : (((v % 4294967296).toNat : Nat) : Int) = v % 4294967296 :=
    Int.toNat_of_nonneg (Int.emod_nonneg _ (by decide))
  have hp : Passes ['-'] (v % 4294967296).toNat s (s.setCell 0) := by
    have h := passes_minus (v % 4294967296).toNat s v hc hr
      (by intro j hj; unfold wrapCell; omega)
    have e : wrapCell (v - (((v % 4294967296).toNat : Nat) : Int)) = 0 := by
      unfold wrapCell; omega
    rw [e] at h
    exact h
  have h0 : (s.setCell 0).cell = some 0 := cell_setCell hc 0
  refine ⟨runs_clear (loops_of_passes _ _ _ hp h0), hp, ?_, ?_, h0, rfl, rfl, ?_⟩
  · intro k t hk ht
    exact passes_unique k _ s t _ hk ht hp h0
  · intro hv
    unfold wrapCell at hr
    omega
  · intro i hi
    exact List.getElem?_set_ne (Ne.symm hi)

theorem C9_clear_loop_witness :
    oneProcedure.cell = some 1 ∧ wrapCell 1 = 1 ∧
    (Runs ['[', '-', ']'] oneProcedure (.done (oneProcedure.setCell 0)) ∧
    Passes ['-'] ((1 : Int) % 4294967296).toNat oneProcedure (oneProcedure.setCell 0) ∧
    (∀ k t, Passes ['-'] k oneProcedure t → t.cell = some 0 →
      k = ((1 : Int) % 4294967296).toNat) ∧
    ((0 : Int) ≤ 1 → ((((1 : Int) % 4294967296).toNat : Nat) : Int) = 1) ∧
    (oneProcedure.setCell 0).cell = some 0 ∧ (oneProcedure.setCell 0).mp = oneProcedure.mp ∧
    (oneProcedure.setCell 0).procedures = oneProcedure.procedures ∧
    ∀ i, i ≠ oneProcedure.mp → (oneProcedure.setCell 0).mem[i]? = oneProcedure.mem[i]?) :=
  ⟨by decide, by decide, C9_clear_loop oneProcedure 1 (by decide) (by decide)⟩

/-! ## Moving the cursor to the right -/

theorem right_eq (s : State) (hc : s.mp < s.mem.length) (hsz : s.mem.length < sizeMod) :
    right s =
      if s.mp + 1 = s.mem.length then
        if s.mem.length * 2 ≤ s.avail then
          .done { s with mp := s.mp + 1, mem := s.mem ++ List.replicate s.mem.length 0 }
        else .fault 1 { s with mp := s.mp + 1 }
      else .done { s with mp := s.mp + 1 } := by
  have hmod : (s.mp + 1) % sizeMod = s.mp + 1 := Nat.mod_eq_of_lt (by omega)
  unfold right
  simp only [hmod]

/-- One successful `>`: where the cursor and the tape are afterwards. -/
theorem right_done {s t : State} (hc : s.mp < s.mem.length) (hsz : s.mem.length < sizeMod)
    (h : right s = .done t) :
    t.mp = s.mp + 1 ∧ t.avail = s.avail ∧ t.mp < t.mem.length ∧
    (s.mp + 1 = s.mem.length →
      s.mem.length * 2 ≤ s.avail ∧ t.mem = s.mem ++ List.replicate s.mem.length 0) ∧
    (s.mp + 1 ≠ s.mem.length → t.mem = s.mem) := by
  rw [right_eq s hc hsz] at h
  by_cases he : s.mp + 1 = s.mem.length
  · rw [if_pos he] at h
    by_cases ha : s.mem.length * 2 ≤ s.avail
    · rw [if_pos ha] at h
      cases h
      refine ⟨rfl, rfl, ?_, fun _ => ⟨ha, rfl⟩, fun hne => absurd he hne⟩
      show s.mp + 1 < (s.mem ++ List.replicate s.mem.length 0).length
      rw [List.length_append, List.length_replicate]
      omega
    · rw [if_neg ha] at h
      cases h
  · rw [if_neg he] at h
    cases h
    refine ⟨rfl, rfl, ?_, fun hh => absurd hh he, fun _ => rfl⟩
    show s.mp + 1 < s.mem.length
    omega

theorem right_keeps {s t : State} (hc : s.mp < s.mem.length) (hsz : s.mem.length < sizeMod)
    (h : right s = .done t) (i : Nat) (hi : i < s.mem.length) : t.mem[i]? = s.mem[i]? := by
  obtain ⟨_, _, _, h1, h2⟩ := right_done hc hsz h
  by_cases he : s.mp + 1 = s.mem.length
  · rw [(h1 he).2]
    exact List.getElem?_append_left hi
  · rw [h2 he]

theorem rights_keep :
    ∀ (n : Nat) (s u : State), s.mp < s.mem.length → s.mem.length < sizeMod →
      s.avail < sizeMod → Runs (List.replicate n '>') s (.done u) →
      ∀ i, i < s.mem.length → u.mem[i]? = s.mem[i]? := by
  intro n
  induction n with
  | zero =>
    intro s u _ _ _ h i _
    cases (runs_nil s _).1 h
    rfl
  | succ n ih =>
    intro s u hc hsz hav h i hi
    rw [List.replicate_succ, runs_right] at h
    cases hr : right s with
    | done t =>
      rw [hr] at h
      obtain ⟨h1, h2, h3, h4, h5⟩ := right_done hc hsz hr
      have hlen : s.mem.length ≤ t.mem.length ∧ t.mem.length < sizeMod := by
        by_cases he : s.mp + 1 = s.mem.length
        · rw [(h4 he).2, List.length_append, List.length_replicate]
          have := (h4 he).1
          omega
        · rw [h5 he]
          exact ⟨Nat.le_refl _, hsz⟩
      rw [ih t u h3 hlen.2 (by rw [h2]; exact hav) h i (Nat.lt_of_lt_of_le hi hlen.1)]
      exact right_keeps hc hsz hr i hi
    | fault e t =>
      rw [hr] at h
      cases (show Outcome.done u = .fault e t from h)
    | undef e t =>
      rw [hr] at h
      cases (show Outcome.done u = .undef e t from h)

/-- C10: on a tape of length `L` (a `size_t` value) with the cursor `c < L`, a
`>` that returns normally moves the cursor to `c + 1`.  If `c + 1 = L` the
tape then has exactly `2 * L` cells and the cells `L` to `2 * L - 1` hold 0;
otherwise its length is still `L`.  In both cases each cell below `L` keeps
its value, and so it does after any number of successive `>`. -/
theorem C10_right_frame (s t : State) (hc : s.mp < s.mem.length)
    (hsz : s.mem.length < sizeMod) (hav : s.avail < sizeMod) (h : right s = .done t) :
    t.mp = s.mp + 1 ∧
    (s.mp + 1 = s.mem.length →
      t.mem.length = 2 * s.mem.length ∧
      ∀ i, s.mem.length ≤ i → i < 2 * s.mem.length → t.mem[i]? = some 0) ∧
    (s.mp + 1 ≠ s.mem.length → t.mem.length = s.mem.length) ∧
    (∀ i, i < s.mem.length → t.mem[i]? = s.mem[i]?) ∧
    (∀ n u, Runs (List.replicate n '>') s (.done u) →
      ∀ i, i < s.mem.length → u.mem[i]? = s.mem[i]?) := by
  obtain ⟨h1, _, _, h4, h5⟩ := right_done hc hsz h
  refine ⟨h1, ?_, ?_, right_keeps hc hsz h, fun n u hr => rights_keep n s u hc hsz hav hr⟩
  · intro he
    rw [(h4 he).2]
    refine ⟨by rw [List.length_append, List.length_replicate]; omega, ?_⟩
    intro i hi1 hi2
    rw [List.getElem?_append_right hi1]
    exact List.getElem?_replicate_of_lt (by omega)
  · intro he
    rw [h5 he]

theorem C10_right_frame_witness :
    twoCells.mp < twoCells.mem.length ∧ twoCells.mem.length < sizeMod ∧
    twoCells.avail < sizeMod ∧ right twoCells = .done fourCells ∧
    (fourCells.mp = twoCells.mp + 1 ∧
    (twoCells.mp + 1 = twoCells.mem.length →
      fourCells.mem.length = 2 * twoCells.mem.length ∧
      ∀ i, twoCells.mem.length ≤ i → i < 2 * twoCells.mem.length →
        fourCells.mem[i]? = some 0) ∧
    (twoCells.mp + 1 ≠ twoCells.mem.length → fourCells.mem.length = twoCells.mem.length) ∧
    (∀ i, i < twoCells.mem.length → fourCells.mem[i]? = twoCells.mem[i]?) ∧
    (∀ n u, Runs (List.replicate n '>') twoCells (.done u) →
      ∀ i, i < twoCells.mem.length → u.mem[i]? = twoCells.mem[i]?)) :=
  ⟨by decide, by decide, by decide, by decide,
    C10_right_frame twoCells fourCells (by decide) (by decide) (by decide) (by decide)⟩

/-! ## Counting up and writing, reading -/

theorem runs_single_plus {s : State} {c : Int} (h : s.cell = some c) (r : SourceBlock)
    (o : Outcome) :
    Runs ('+' :: r) s o ↔ Runs r (s.setCell (wrapCell (c + 1))) o := by
  rw [runs_plus]
  simp only [plus, h, Outcome.follow]

theorem wrapCell_wrapCell_add (c : Int) (j : Int) :
    wrapCell (wrapCell c + j) = wrapCell (c + j) := by
  unfold wrapCell
  omega

/-- The instruction `+` repeated `n` times on a cell holding the `int` `c`. -/
theorem runs_pluses :
    ∀ (n : Nat) (s : State) (c : Int), s.cell = some c → wrapCell c = c →
      ∀ r o, Runs (List.replicate n '+' ++ r) s o ↔
        Runs r (s.setCell (wrapCell (c + n))) o := by
  intro n
  induction n with
  | zero =>
    intro s c hc hr r o
    rw [Int.ofNat_zero, Int.add_zero, hr, setCell_self hc]
    rfl
  | succ n ih =>
    intro s c hc hr r o
    rw [List.replicate_succ, List.cons_append, runs_single_plus hc,
      ih (s.setCell (wrapCell (c + 1))) (wrapCell (c + 1)) (cell_setCell hc _)
        (by unfold wrapCell; omega),
      setCell_setCell, wrapCell_wrapCell_add]
    have e : c + 1 + (n : Int) = c + ((n + 1 : Nat) : Int) := by push_cast; ring
    rw [e]

theorem runs_single_put {s : State} {c : Int} (h : s.cell = some c) (hw : c ≠ -1)
    (r : SourceBlock) (o : Outcome) :
    Runs ('.' :: r) s o ↔ Runs r { s with output := s.output ++ [c] } o := by
  rw [runs_put]
  simp only [put, h, if_neg hw, Outcome.follow]

theorem runs_single_put_eof {s : State} (h : s.cell = some (-1)) (r : SourceBlock)
    (o : Outcome) :
    Runs ('.' :: r) s o ↔ Runs r s o := by
  rw [runs_put]
  simp only [put, h, if_true, Outcome.follow]

theorem wrapCell_eq_neg_one (n : Nat) :
    wrapCell n = -1 ↔ n % 4294967296 = 4294967295 := by
  unfold wrapCell
  omega

/-- C11, as the claim states it, fails at n = 4294967295: from `blank`, whose
current cell holds 0, 4294967295 times `+` bring the cell to -1, the value that
converts to the end-of-file value of `wchar_t`, and `.` then writes nothing.
The run returns normally with the output still empty, and no run of this
program ends with one unit appended to the output. -/
theorem C11_counterexample :
    blank.cell = some 0 ∧ blank.output = [] ∧
    Runs (List.replicate 4294967295 '+' ++ ['.']) blank
      (.done { mem := [-1, 0], mp := 0, procedures := [], input := [], output := [],
               avail := 0 }) ∧
    ¬ ∃ t u, Runs (List.replicate 4294967295 '+' ++ ['.']) blank (.done t) ∧
        t.output = blank.output ++ [u] := by
  have hc : blank.cell = some 0 := by decide
  have hw : wrapCell (0 + ((4294967295 : Nat) : Int)) = -1 := by
    unfold wrapCell
    omega
  have hr : Runs (List.replicate 4294967295 '+' ++ ['.']) blank
      (.done { mem := [-1, 0], mp := 0, procedures := [], input := [], output := [],
               avail := 0 }) := by
    rw [runs_pluses 4294967295 blank 0 hc (by decide), hw,
      runs_single_put_eof (cell_setCell hc _), runs_nil]
    rfl
  refine ⟨hc, rfl, hr, ?_⟩
  rintro ⟨t, u, ht, hu⟩
  have e := runs_unique ht hr
  have e1 : t = { mem := [-1, 0], mp := 0, procedures := [], input := [], output := [],
                  avail := 0 } := Outcome.done.inj e
  rw [e1] at hu
  exact List.cons_ne_nil u [] hu.symm

/-- C11 (as amended): from a state whose current cell holds 0, `n` times `+`
followed by `.` returns normally with the current cell holding `wrapCell n`,
which is `n` reduced modulo 2^32 into the range of the signed 32 bit `int` (so
it is `n` itself below 2^31).  Unless that value is -1 (`n` is 4294967295
modulo 2^32), exactly one unit, of that value, has been appended to the output;
when it is -1, the end-of-file value of the character type, nothing has been
written.  In both cases the cursor, every other cell, the table and the input
are as before. -/
theorem C11_plus_then_put (s : State) (n : Nat) (hc : s.cell = some 0) :
    (n % 4294967296 ≠ 4294967295 →
      Runs (List.replicate n '+' ++ ['.']) s
        (.done { mem := s.mem.set s.mp (wrapCell n), mp := s.mp, procedures := s.procedures,
                 input := s.input, output := s.output ++ [wrapCell n], avail := s.avail })) ∧
    (n % 4294967296 = 4294967295 →
      wrapCell n = -1 ∧
      Runs (List.replicate n '+' ++ ['.']) s
        (.done { mem := s.mem.set s.mp (wrapCell n), mp := s.mp, procedures := s.procedures,
                 input := s.input, output := s.output, avail := s.avail })) ∧
    (wrapCell n - n) % 4294967296 = 0 ∧ -2147483648 ≤ wrapCell n ∧ wrapCell n < 2147483648 ∧
    (n < 2147483648 → wrapCell n = n) ∧
    ∀ i, i ≠ s.mp → (s.mem.set s.mp (wrapCell n))[i]? = s.mem[i]? := by
  refine ⟨fun hn => ?_, fun hn => ⟨(wrapCell_eq_neg_one n).2 hn, ?_⟩,
    by unfold wrapCell; omega, by unfold wrapCell; omega, by unfold wrapCell; omega,
    fun h => by unfold wrapCell; omega, fun i hi => List.getElem?_set_ne (Ne.symm hi)⟩
  · have hw : wrapCell n ≠ -1 := fun h => hn ((wrapCell_eq_neg_one n).1 h)
    rw [runs_pluses n s 0 hc (by decide), Int.zero_add,
      runs_single_put (cell_setCell hc _) hw, runs_nil]
    rfl
  · have hw : wrapCell n = -1 := (wrapCell_eq_neg_one n).2 hn
    have hcell : (s.setCell (wrapCell n)).cell = some (-1) := by
      rw [cell_setCell hc, hw]
    rw [runs_pluses n s 0 hc (by decide), Int.zero_add,
      runs_single_put_eof hcell, runs_nil]
    rfl

theorem C11_plus_then_put_witness :
    blank.cell = some 0 ∧ (3 : Nat) % 4294967296 ≠ 4294967295 ∧
    wrapCell ((3 : Nat) : Int) = 3 ∧
    Runs (List.replicate 3 '+' ++ ['.']) blank
      (.done { mem := blank.mem.set blank.mp (wrapCell (3 : Nat)), mp := blank.mp,
               procedures := blank.procedures, input := blank.input,
               output := blank.output ++ [wrapCell (3 : Nat)], avail := blank.avail }) :=
  ⟨by decide, by decide, by decide, (C11_plus_then_put blank 3 (by decide)).1 (by decide)⟩

theorem get_eof {s : State} (hc : s.mp < s.mem.length) (hi : s.input = []) :
    get s = .done (s.setCell (-1)) := by
  simp only [get, hc, hi, if_true]

theorem get_unit {s : State} (hc : s.mp < s.mem.length) {u : Int} {us : List Int}
    (hi : s.input = u :: us) :
    get s = .done ({ s with input := us }.setCell (wrapCell u)) := by
  simp only [get, hc, hi, if_true]

/-- C12: with the cursor on the tape, `,` never throws.  When the input is
exhausted it stores -1 in the current cell and changes nothing else; when a
unit `u` (a 32 bit code) is pending it stores `u` in the current cell and
removes exactly that unit from the input.  The dispatch then goes on with the
next character. -/
theorem C12_read (s : State) (hc : s.mp < s.mem.length) :
    (s.input = [] →
      get s = .done { mem := s.mem.set s.mp (-1), mp := s.mp, procedures := s.procedures,
                      input := [], output := s.output, avail := s.avail } ∧
      ∀ r o, Runs (',' :: r) s o ↔ Runs r (s.setCell (-1)) o) ∧
    (∀ u us, s.input = u :: us → wrapCell u = u →
      get s = .done { mem := s.mem.set s.mp u, mp := s.mp, procedures := s.procedures,
                      input := us, output := s.output, avail := s.avail } ∧
      ∀ r o, Runs (',' :: r) s o ↔ Runs r ({ s with input := us }.setCell u) o) := by
  constructor
  · intro hi
    refine ⟨?_, fun r o => ?_⟩
    · rw [get_eof hc hi]
      simp only [State.setCell, hi]
    · rw [runs_get, get_eof hc hi]
      rfl
  · intro u us hi hu
    refine ⟨?_, fun r o => ?_⟩
    · rw [get_unit hc hi, hu]
      rfl
    · rw [runs_get, get_unit hc hi, hu]
      rfl

theorem C12_read_witness :
    twoUnits.mp < twoUnits.mem.length ∧
    ((twoUnits.input = [] →
      get twoUnits = .done { mem := twoUnits.mem.set twoUnits.mp (-1), mp := twoUnits.mp,
                             procedures := twoUnits.procedures, input := [],
                             output := twoUnits.output, avail := twoUnits.avail } ∧
      ∀ r o, Runs (',' :: r) twoUnits o ↔ Runs r (twoUnits.setCell (-1)) o) ∧
    (∀ u us, twoUnits.input = u :: us → wrapCell u = u →
      get twoUnits = .done { mem := twoUnits.mem.set twoUnits.mp u, mp := twoUnits.mp,
                             procedures := twoUnits.procedures, input := us,
                             output := twoUnits.output, avail := twoUnits.avail } ∧
      ∀ r o, Runs (',' :: r) twoUnits o ↔
        Runs r ({ twoUnits with input := us }.setCell u) o)) :=
  ⟨by decide, C12_read twoUnits (by decide)⟩

/-! ## Moving the cursor to the left, in general -/

/-- Below 2^31 + 1 the test of case `'<'` is exact: the cursor moves and
nothing is thrown. -/
theorem left_ok (s : State) (h1 : 1 ≤ s.mp) (h2 : s.mp ≤ 2147483648) :
    left s = .done { s with mp := s.mp - 1 } := by
  have e : (s.mp + sizeMod - 1) % sizeMod = s.mp - 1 := by
    have : s.mp + sizeMod - 1 = (s.mp - 1) + sizeMod := by omega
    rw [this, Nat.add_mod_right]
    exact Nat.mod_eq_of_lt (by unfold sizeMod; omega)
  have hc : ¬ castInt (s.mp - 1) < 0 := by
    unfold castInt wrapCell
    omega
  unfold left
  simp only [e]
  rw [if_neg hc]

/-- On cursor 2^31 + 1 the test of case `'<'` sees a negative `int`. -/
theorem left_high (s : State) (h : s.mp = 2147483649) :
    left s = .fault 3 { s with mp := 2147483648 } := by
  have e : (s.mp + sizeMod - 1) % sizeMod = 2147483648 := by
    rw [h]; decide
  unfold left
  simp only [e]
  rw [if_pos (by decide)]

/-- C15, the failing input: on a tape of 3932160000 cells with the cursor on
cell 2147483649 (not 0, and on the tape), `<` throws 3: the decremented
cursor 2147483648 converts to a negative `int`.  No other outcome is
possible. -/
theorem C15_left_faults_on_high_cursor :
    1 ≤ highCursor.mp ∧ highCursor.mp < highCursor.mem.length ∧
    highCursor.mem.length < sizeMod ∧
    ∀ r o, Runs ('<' :: r) highCursor o ↔
      o = .fault 3 { highCursor with mp := 2147483648 } := by
  refine ⟨by decide, ?_, ?_, ?_⟩
  · show 2147483649 < (List.replicate 3932160000 (0 : Int)).length
    rw [List.length_replicate]
    decide
  · show (List.replicate 3932160000 (0 : Int)).length < sizeMod
    rw [List.length_replicate]
    decide
  · intro r o
    rw [runs_left, left_high highCursor rfl]
    exact Iff.rfl

/-! ## A definition without its closing parenthesis -/

theorem captured_of_not_mem {b : SourceBlock} (hb : ')' ∉ b) : captured b = b := by
  unfold captured
  rw [List.takeWhile_eq_self_iff]
  intro c hc
  have : c ≠ ')' := fun e => hb (e ▸ hc)
  simpa using this

theorem afterCapture_of_not_mem {b : SourceBlock} (hb : ')' ∉ b) : afterCapture b = [] := by
  unfold afterCapture
  rw [List.dropWhile_eq_nil_iff]
  intro c hc
  have : c ≠ ')' := fun e => hb (e ▸ hc)
  simpa using this

/-- A `(` with no `)` behind it in its range: the block is stored and the
iterator leaves the range. -/
theorem runs_define_open {b : SourceBlock} (hb : ')' ∉ b) {s : State} {k : Int}
    (hc : s.cell = some k) (o : Outcome) :
    Runs ('(' :: b) s o ↔
      o = .undef .readPastEnd { s with procedures := insert s.procedures k b } := by
  rw [runs_iff_succ]
  simp only [interpret_define, hc, afterCapture_of_not_mem hb, captured_of_not_mem hb,
    Option.some.injEq, exists_const]
  exact eq_comm

/-- C18, the failing input: the range `(ab` run from a state whose current cell
holds 0 stores `ab` under key 0 and then does not return normally: the
iterator is incremented past the end of the range, and what `interpret` reads
from there on is outside the range.  No other outcome is possible. -/
theorem C18_unterminated_definition :
    ∀ o, Runs ['(', 'a', 'b'] blank o ↔
      o = .undef .readPastEnd { blank with procedures := [(0, ['a', 'b'])] } := by
  intro o
  rw [runs_define_open (by decide) (show blank.cell = some 0 by decide)]
  exact Iff.rfl

/-! ## Properties kept along a run -/

theorem seq_induct {G : State → Outcome → Prop}
    (htrans : ∀ s t o, G s (.done t) → G t o → G s o)
    {r : Option Outcome} {k : State → Option Outcome} {s : State} {o : Outcome}
    (hr : ∀ x, r = some x → G s x) (hk : ∀ t y, k t = some y → G t y)
    (h : seq r k = some o) : G s o := by
  cases hx : r with
  | none => simp [seq, hx] at h
  | some x =>
    rw [hx] at h
    cases x with
    | done t => exact htrans s t o (hr _ hx) (hk t o h)
    | fault e t => cases Option.some.inj h; exact hr _ hx
    | undef u t => cases Option.some.inj h; exact hr _ hx

theorem andThen_induct {G : State → Outcome → Prop}
    (htrans : ∀ s t o, G s (.done t) → G t o → G s o)
    {x : Outcome} {k : State → Option Outcome} {s : State} {o : Outcome}
    (hx : G s x) (hk : ∀ t y, k t = some y → G t y)
    (h : x.andThen k = some o) : G s o := by
  cases x with
  | done t => exact htrans s t o hx (hk t o h)
  | fault e t => cases Option.some.inj h; exact hx
  | undef u t => cases Option.some.inj h; exact hx

/-- A relation `G` between a state and the outcomes of the runs from it holds
for every run if it holds for no step at all, composes along normal returns,
and holds for each single action of the `switch`. -/
theorem interpret_induct (G : State → Outcome → Prop)
    (hdone : ∀ s, G s (.done s))
    (htrans : ∀ s t o, G s (.done t) → G t o → G s o)
    (hprim : ∀ c f, prim c = some f → ∀ s, G s (f s))
    (hdef : ∀ s k b, s.cell = some k →
      G s (.done { s with procedures := insert s.procedures k b }))
    (hpast : ∀ s k b, s.cell = some k →
      G s (.undef .readPastEnd { s with procedures := insert s.procedures k b }))
    (hcell : ∀ s, s.cell = none → G s (.undef .cellOutOfRange s))
    (hfault : ∀ s e, G s (.fault e s)) (n : Nat) :
    (∀ p s o, interpret n p s = some o → G s o) ∧
    (∀ p s o, loop n p s = some o → G s o) := by
  induction n with
  | zero =>
    constructor <;> intro p s o h <;> simp [interpret_zero, loop_zero] at h
  | succ n ih =>
    obtain ⟨ihI, ihL⟩ := ih
    constructor
    · intro p s o h
      cases p with
      | nil =>
        rw [interpret_nil] at h
        cases Option.some.inj h
        exact hdone s
      | cons c rest =>
        rcases char_cases c with rfl | rfl | rfl | rfl | rfl | rfl | rfl | rfl | rfl | hc
        · rw [interpret_plus] at h
          exact andThen_induct htrans (hprim '+' plus rfl s) (ihI rest) h
        · rw [interpret_minus] at h
          exact andThen_induct htrans (hprim '-' minus rfl s) (ihI rest) h
        · rw [interpret_right] at h
          exact andThen_induct htrans (hprim '>' right rfl s) (ihI rest) h
        · rw [interpret_left] at h
          exact andThen_induct htrans (hprim '<' left rfl s) (ihI rest) h
        · rw [interpret_put] at h
          exact andThen_induct htrans (hprim '.' put rfl s) (ihI rest) h
        · rw [interpret_get] at h
          exact andThen_induct htrans (hprim ',' get rfl s) (ihI rest) h
        · rw [interpret_open] at h
          cases hm : findMatch 0 rest with
          | none =>
            simp only [hm] at h
            cases Option.some.inj h
            exact hfault s 4
          | some pr =>
            obtain ⟨body, after⟩ := pr
            simp only [hm] at h
            exact seq_induct htrans (ihL body s) (ihI after) h
        · rw [interpret_define] at h
          cases hv : s.cell with
          | none =>
            simp only [hv] at h
            cases Option.some.inj h
            exact hcell s hv
          | some v =>
            simp only [hv] at h
            cases ha : afterCapture rest with
            | nil =>
              simp only [ha] at h
              cases Option.some.inj h
              exact hpast s v _ hv
            | cons d after =>
              simp only [ha] at h
              exact htrans s _ o (hdef s v (captured rest) hv) (ihI after _ o h)
        · rw [interpret_call] at h
          cases hv : s.cell with
          | none =>
            simp only [hv] at h
            cases Option.some.inj h
            exact hcell s hv
          | some v =>
            simp only [hv] at h
            cases hf : find s.procedures v with
            | none =>
              simp only [hf] at h
              cases Option.some.inj h
              exact hfault s 2
            | some body =>
              simp only [hf] at h
              exact seq_induct htrans (ihI body s) (ihI rest) h
        · rw [interpret_skip _ _ _ _ hc] at h
          exact ihI rest s o h
    · intro p s o h
      rw [loop_succ] at h
      cases hv : s.cell with
      | none =>
        simp only [hv] at h
        cases Option.some.inj h
        exact hcell s hv
      | some v =>
        simp only [hv] at h
        by_cases h0 : v = 0
        · rw [if_pos h0] at h
          cases Option.some.inj h
          exact hdone s
        · rw [if_neg h0] at h
          exact seq_induct htrans (ihI p s) (ihL p) h

/-! ## The points a run gets to -/

theorem runs_prim {c : Char} {f : State → Outcome} (h : prim c = some f) (r : SourceBlock)
    (s : State) (o : Outcome) : Runs (c :: r) s o ↔ (f s).follow (Runs r) o := by
  rcases char_cases c with rfl | rfl | rfl | rfl | rfl | rfl | rfl | rfl | rfl | hc
  · have hf : plus = f := Option.some.inj h
    rw [← hf]; exact runs_plus r s o
  · have hf : minus = f := Option.some.inj h
    rw [← hf]; exact runs_minus r s o
  · have hf : right = f := Option.some.inj h
    rw [← hf]; exact runs_right r s o
  · have hf : left = f := Option.some.inj h
    rw [← hf]; exact runs_left r s o
  · have hf : put = f := Option.some.inj h
    rw [← hf]; exact runs_put r s o
  · have hf : get = f := Option.some.inj h
    rw [← hf]; exact runs_get r s o
  · cases (show (none : Option (State → Outcome)) = some f from h)
  · cases (show (none : Option (State → Outcome)) = some f from h)
  · cases (show (none : Option (State → Outcome)) = some f from h)
  · exfalso
    simp only [isInstr, Bool.or_eq_false_iff, decide_eq_false_iff_not] at hc
    obtain ⟨⟨⟨⟨⟨⟨⟨⟨h1, h2⟩, h3⟩, h4⟩, h5⟩, h6⟩, _⟩, _⟩, _⟩ := hc
    simp only [prim, if_neg h1, if_neg h2, if_neg h3, if_neg h4, if_neg h5, if_neg h6] at h
    cases h

theorem follow_self {o : Outcome} (h : o.isDone = false) (R : State → Outcome → Prop) :
    o.follow R o := by
  cases o with
  | done t => cases h
  | fault e t => rfl
  | undef u t => rfl

/-- An outcome other than a normal return passes through one move of the
dispatch. -/
theorem step_passes {p q : SourceBlock} {s t : State} (h : Step p s q t) {o : Outcome}
    (ho : o.isDone = false) (hq : Runs q t o) : Runs p s o := by
  cases h with
  | act hp hf =>
    rw [runs_prim hp, hf]
    exact hq
  | skip hc => exact (runs_skip hc _ _ _).2 hq
  | define hc ha => exact (runs_define hc ha _).2 hq
  | enterCall hc hf => exact (runs_call hc hf _).2 ⟨o, hq, follow_self ho _⟩
  | afterCall hc hf hb => exact (runs_call hc hf _).2 ⟨_, hb, hq⟩
  | enterLoop hm hc hv => exact (runs_loop_nonzero hm hc hv _).2 ⟨o, hq, follow_self ho _⟩
  | again hm hc hv hb => exact (runs_loop_nonzero hm hc hv _).2 ⟨_, hb, hq⟩
  | leaveLoop hm hc => exact (runs_loop_zero hm hc _).2 hq

theorem reaches_passes {p q : SourceBlock} {s t : State} (h : Reaches p s q t) {o : Outcome}
    (ho : o.isDone = false) (hq : Runs q t o) : Runs p s o := by
  induction h with
  | here => exact hq
  | next hs _ ih => exact step_passes hs ho (ih hq)

theorem runs_induct (G : State → Outcome → Prop)
    (hdone : ∀ s, G s (.done s))
    (htrans : ∀ s t o, G s (.done t) → G t o → G s o)
    (hprim : ∀ c f, prim c = some f → ∀ s, G s (f s))
    (hdef : ∀ s k b, s.cell = some k →
      G s (.done { s with procedures := insert s.procedures k b }))
    (hpast : ∀ s k b, s.cell = some k →
      G s (.undef .readPastEnd { s with procedures := insert s.procedures k b }))
    (hcell : ∀ s, s.cell = none → G s (.undef .cellOutOfRange s))
    (hfault : ∀ s e, G s (.fault e s))
    {p : SourceBlock} {s : State} {o : Outcome} (h : Runs p s o) : G s o := by
  obtain ⟨n, hn⟩ := h
  exact (interpret_induct G hdone htrans hprim hdef hpast hcell hfault n).1 p s o hn

theorem step_induct (G : State → Outcome → Prop)
    (hdone : ∀ s, G s (.done s))
    (htrans : ∀ s t o, G s (.done t) → G t o → G s o)
    (hprim : ∀ c f, prim c = some f → ∀ s, G s (f s))
    (hdef : ∀ s k b, s.cell = some k →
      G s (.done { s with procedures := insert s.procedures k b }))
    (hpast : ∀ s k b, s.cell = some k →
      G s (.undef .readPastEnd { s with procedures := insert s.procedures k b }))
    (hcell : ∀ s, s.cell = none → G s (.undef .cellOutOfRange s))
    (hfault : ∀ s e, G s (.fault e s))
    {p q : SourceBlock} {s t : State} (h : Step p s q t) : G s (.done t) := by
  cases h with
  | act hp hf => rw [← hf]; exact hprim _ _ hp s
  | skip _ => exact hdone s
  | define hc _ => exact hdef s _ _ hc
  | enterCall _ _ => exact hdone s
  | afterCall _ _ hb => exact runs_induct G hdone htrans hprim hdef hpast hcell hfault hb
  | enterLoop _ _ _ => exact hdone s
  | again _ _ _ hb => exact runs_induct G hdone htrans hprim hdef hpast hcell hfault hb
  | leaveLoop _ _ => exact hdone s

theorem reaches_induct (G : State → Outcome → Prop)
    (hdone : ∀ s, G s (.done s))
    (htrans : ∀ s t o, G s (.done t) → G t o → G s o)
    (hprim : ∀ c f, prim c = some f → ∀ s, G s (f s))
    (hdef : ∀ s k b, s.cell = some k →
      G s (.done { s with procedures := insert s.procedures k b }))
    (hpast : ∀ s k b, s.cell = some k →
      G s (.undef .readPastEnd { s with procedures := insert s.procedures k b }))
    (hcell : ∀ s, s.cell = none → G s (.undef .cellOutOfRange s))
    (hfault : ∀ s e, G s (.fault e s))
    {p q : SourceBlock} {s t : State} (h : Reaches p s q t) : G s (.done t) := by
  induction h with
  | here => exact hdone _
  | next hs _ ih =>
    exact htrans _ _ _ (step_induct G hdone htrans hprim hdef hpast hcell hfault hs) ih

/-! ## Faults pass through every enclosing dispatch -/

/-- C16: let the dispatch of the range `p` from `s` get, at any depth of nested
loop bodies and procedure bodies, to the dispatch of the range `q` in state
`u`, and let that dispatch throw `e` in state `t`.  Then the dispatch of `p`
throws `e` in the same state `t` and has no other outcome, and `main` ends
with exit status `e` and the diagnostic for the state `t`.  In particular a
loop whose body is `q` and is entered from `u` with a cell other than 0, and a
call of a procedure whose body is `q`, throw `e` in state `t`, whatever
follows them. -/
theorem C16_fault_propagation (p q : SourceBlock) (s u t : State) (e : Nat)
    (hr : Reaches p s q u) (hf : Runs q u (.fault e t)) :
    (∀ o, Runs p s o ↔ o = .fault e t) ∧
    (∃ n, finish (interpret n p s) = some (.exit t.output (diagnostic e t) e)) ∧
    (∀ rest after v, findMatch 0 rest = some (q, after) → u.cell = some v → v ≠ 0 →
      ∀ o, Runs ('[' :: rest) u o ↔ o = .fault e t) ∧
    (∀ r k, u.cell = some k → find u.procedures k = some q →
      ∀ o, Runs (':' :: r) u o ↔ o = .fault e t) := by
  have key : ∀ (p1 : SourceBlock) (s1 : State), Runs p1 s1 (.fault e t) →
      ∀ o, Runs p1 s1 o ↔ o = .fault e t := by
    intro p1 s1 h o
    exact ⟨fun ho => runs_unique ho h, fun ho => ho ▸ h⟩
  have hp : Runs p s (.fault e t) := reaches_passes hr rfl hf
  refine ⟨key p s hp, ?_, ?_, ?_⟩
  · obtain ⟨n, hn⟩ := hp
    exact ⟨n, by rw [hn]; rfl⟩
  · intro rest after v hm hc hv
    exact key _ _ (step_passes (Step.enterLoop hm hc hv) rfl hf)
  · intro r k hc hk
    exact key _ _ (step_passes (Step.enterCall hc hk) rfl hf)

theorem C16_fault_propagation_witness :
    Reaches ['+', '[', '<', ']', '.'] blank ['<'] plusOne ∧
    Runs ['<'] plusOne (.fault 3 { plusOne with mp := 18446744073709551615 }) ∧
    ((∀ o, Runs ['+', '[', '<', ']', '.'] blank o ↔
        o = .fault 3 { plusOne with mp := 18446744073709551615 }) ∧
    (∃ n, finish (interpret n ['+', '[', '<', ']', '.'] blank) =
      some (.exit ({ plusOne with mp := 18446744073709551615 } : State).output
        (diagnostic 3 { plusOne with mp := 18446744073709551615 }) 3)) ∧
    (∀ rest after v, findMatch 0 rest = some (['<'], after) → plusOne.cell = some v → v ≠ 0 →
      ∀ o, Runs ('[' :: rest) plusOne o ↔
        o = .fault 3 { plusOne with mp := 18446744073709551615 }) ∧
    (∀ r k, plusOne.cell = some k → find plusOne.procedures k = some ['<'] →
      ∀ o, Runs (':' :: r) plusOne o ↔
        o = .fault 3 { plusOne with mp := 18446744073709551615 })) :=
  have hr : Reaches ['+', '[', '<', ']', '.'] blank ['<'] plusOne :=
    Reaches.next (Step.act (show prim '+' = some plus from rfl)
        (show plus blank = .done plusOne by decide))
      (Reaches.next (Step.enterLoop (show findMatch 0 ['<', ']', '.'] = some (['<'], ['.'])
          by decide) (show plusOne.cell = some 1 by decide) (by decide))
        (Reaches.here _ _))
  have hf : Runs ['<'] plusOne (.fault 3 { plusOne with mp := 18446744073709551615 }) :=
    (runs_left_at_zero plusOne rfl [] _).2 rfl
  ⟨hr, hf, C16_fault_propagation _ _ _ _ _ _ hr hf⟩

/-! ## The cursor stays on the tape -/

theorem wf_cell {s : State} (h : s.wf) : ∃ v, s.cell = some v :=
  ⟨_, List.getElem?_eq_getElem h.1⟩

theorem wf_setCell {s : State} (h : s.wf) (v : Int) : (s.setCell v).wf := by
  simpa only [State.wf, State.setCell, List.length_set] using h

theorem plus_inBounds (s : State) (hw : s.wf) : (plus s).inBounds := by
  obtain ⟨v, hv⟩ := wf_cell hw
  simp only [plus, hv]
  exact wf_setCell hw _

theorem minus_inBounds (s : State) (hw : s.wf) : (minus s).inBounds := by
  obtain ⟨v, hv⟩ := wf_cell hw
  simp only [minus, hv]
  exact wf_setCell hw _

theorem right_inBounds (s : State) (hw : s.wf) : (right s).inBounds := by
  cases hr : right s with
  | done t =>
    obtain ⟨h1, h2, h3, h4, h5⟩ := right_done hw.1 hw.2.1 hr
    refine ⟨h3, ?_, by rw [h2]; exact hw.2.2⟩
    by_cases he : s.mp + 1 = s.mem.length
    · rw [(h4 he).2, List.length_append, List.length_replicate]
      have := (h4 he).1
      have := hw.2.2
      omega
    · rw [h5 he]
      exact hw.2.1
  | fault e t => trivial
  | undef u t =>
    rw [right_eq s hw.1 hw.2.1] at hr
    split_ifs at hr

theorem left_done {s t : State} (hw : s.wf) (h : left s = .done t) :
    1 ≤ s.mp ∧ t = { s with mp := s.mp - 1 } := by
  by_cases hc : castInt ((s.mp + sizeMod - 1) % sizeMod) < 0
  · have e1 : left s = .fault 3 { s with mp := (s.mp + sizeMod - 1) % sizeMod } := by
      simp only [left, if_pos hc]
    rw [e1] at h
    cases h
  · have e1 : left s = .done { s with mp := (s.mp + sizeMod - 1) % sizeMod } := by
      simp only [left, if_neg hc]
    have hpos : 0 < s.mp := by
      rcases Nat.eq_zero_or_pos s.mp with h0 | h0
      · exfalso
        apply hc
        rw [h0]
        simp only [sizeMod]
        decide
      · exact h0
    have hm : (s.mp + sizeMod - 1) % sizeMod = s.mp - 1 := by
      have : s.mp + sizeMod - 1 = (s.mp - 1) + sizeMod := by omega
      rw [this, Nat.add_mod_right]
      exact Nat.mod_eq_of_lt (by have := hw.1; have := hw.2.1; omega)
    rw [e1, hm] at h
    cases h
    exact ⟨hpos, rfl⟩

attribute [irreducible] left

theorem left_inBounds (s : State) (hw : s.wf) : (left s).inBounds := by
  cases hl : left s with
  | done t =>
    obtain ⟨h1, rfl⟩ := left_done hw hl
    refine ⟨?_, hw.2.1, hw.2.2⟩
    show s.mp - 1 < s.mem.length
    have := hw.1
    omega
  | fault e t => trivial
  | undef u t =>
    unfold left at hl
    simp only [] at hl
    split_ifs at hl

theorem put_inBounds (s : State) (hw : s.wf) : (put s).inBounds := by
  obtain ⟨v, hv⟩ := wf_cell hw
  simp only [put, hv]
  split_ifs <;> exact hw

theorem get_inBounds (s : State) (hw : s.wf) : (get s).inBounds := by
  cases hi : s.input with
  | nil =>
    rw [get_eof hw.1 hi]
    exact wf_setCell hw _
  | cons x xs =>
    rw [get_unit hw.1 hi]
    exact wf_setCell (show State.wf { s with input := xs } from hw) _

theorem prim_inBounds (c : Char) (f : State → Outcome) (hp : prim c = some f) (s : State)
    (hw : s.wf) : (f s).inBounds := by
  rcases char_cases c with rfl | rfl | rfl | rfl | rfl | rfl | rfl | rfl | rfl | hc
  · have hf : plus = f := Option.some.inj hp
    subst hf
    exact plus_inBounds s hw
  · have hf : minus = f := Option.some.inj hp
    subst hf
    exact minus_inBounds s hw
  · have hf : right = f := Option.some.inj hp
    subst hf
    exact right_inBounds s hw
  · have hf : left = f := Option.some.inj hp
    subst hf
    exact left_inBounds s hw
  · have hf : put = f := Option.some.inj hp
    subst hf
    exact put_inBounds s hw
  · have hf : get = f := Option.some.inj hp
    subst hf
    exact get_inBounds s hw
  · cases (show (none : Option (State → Outcome)) = some f from hp)
  · cases (show (none : Option (State → Outcome)) = some f from hp)
  · cases (show (none : Option (State → Outcome)) = some f from hp)
  · exfalso
    simp only [isInstr, Bool.or_eq_false_iff, decide_eq_false_iff_not] at hc
    obtain ⟨⟨⟨⟨⟨⟨⟨⟨h1, h2⟩, h3⟩, h4⟩, h5⟩, h6⟩, _⟩, _⟩, _⟩ := hc
    simp only [prim, if_neg h1, if_neg h2, if_neg h3, if_neg h4, if_neg h5, if_neg h6] at hp
    cases hp

/-- The cursor invariant as a relation between a state and an outcome. -/
theorem inBounds_induct_hyps :
    (∀ s : State, s.wf → (Outcome.done s).inBounds) ∧
    (∀ (s t : State) (o : Outcome), (s.wf → (Outcome.done t).inBounds) →
      (t.wf → o.inBounds) → s.wf → o.inBounds) ∧
    (∀ (s : State) (k : Int) (b : SourceBlock), s.cell = some k → s.wf →
      (Outcome.done { s with procedures := insert s.procedures k b }).inBounds) ∧
    (∀ s : State, s.cell = none → s.wf → (Outcome.undef .cellOutOfRange s).inBounds) := by
  refine ⟨fun s hw => hw, fun s t o h1 h2 hw => h2 (h1 hw), fun s k b _ hw => hw, ?_⟩
  intro s hc hw
  obtain ⟨v, hv⟩ := wf_cell hw
  rw [hv] at hc
  cases hc

theorem runs_inBounds {p : SourceBlock} {s : State} {o : Outcome} (h : Runs p s o)
    (hw : s.wf) : o.inBounds := by
  obtain ⟨h1, h2, h3, h4⟩ := inBounds_induct_hyps
  exact runs_induct (fun s o => s.wf → o.inBounds) h1 h2
    (fun c f hp s hw => prim_inBounds c f hp s hw) h3
    (fun s k b _ _ => by simp [Outcome.inBounds]) h4 (fun s e _ => trivial) h hw

theorem reaches_wf {p q : SourceBlock} {s t : State} (h : Reaches p s q t)
    (hw : s.wf) : t.wf := by
  obtain ⟨h1, h2, h3, h4⟩ := inBounds_induct_hyps
  exact reaches_induct (fun s o => s.wf → o.inBounds) h1 h2
    (fun c f hp s hw => prim_inBounds c f hp s hw) h3
    (fun s k b _ _ => by simp [Outcome.inBounds]) h4 (fun s e _ => trivial) h hw

theorem initial_wf (inp : List Int) (a : Nat) (ha : a < sizeMod) : (initial inp a).wf := by
  refine ⟨?_, ?_, ha⟩
  · show 0 < (List.replicate 30000 (0 : Int)).length
    rw [List.length_replicate]
    decide
  · show (List.replicate 30000 (0 : Int)).length < sizeMod
    rw [List.length_replicate]
    simp only [sizeMod]
    decide

/-- C17: start the range `p` in a state `s` whose cursor is on the tape (the
tape length and the allocator limit being `size_t` values).  Then in every
state `t` the dispatch gets to, at any depth of nested bodies, the cursor is
below the tape length and the current cell exists; every state in which a run
from there returns has its cursor on the tape, and no run from there ever
makes an access `mem[mp]` outside the tape. -/
theorem C17_cursor_in_bounds (p q : SourceBlock) (s t : State) (hw : s.wf)
    (hr : Reaches p s q t) :
    t.mp < t.mem.length ∧ (∃ v, t.cell = some v) ∧
    (∀ u, Runs q t (.done u) → u.mp < u.mem.length) ∧
    (∀ u, ¬ Runs q t (.undef .cellOutOfRange u)) := by
  have ht : t.wf := reaches_wf hr hw
  refine ⟨ht.1, wf_cell ht, ?_, ?_⟩
  · intro u hu
    exact (runs_inBounds hu ht).1
  · intro u hu
    exact runs_inBounds hu ht rfl

theorem C17_cursor_in_bounds_witness :
    blank.wf ∧ Reaches ['+', '[', '<', ']', '.'] blank ['<'] plusOne ∧
    (plusOne.mp < plusOne.mem.length ∧ (∃ v, plusOne.cell = some v) ∧
    (∀ u, Runs ['<'] plusOne (.done u) → u.mp < u.mem.length) ∧
    (∀ u, ¬ Runs ['<'] plusOne (.undef .cellOutOfRange u))) :=
  have hw : blank.wf := ⟨by decide, by simp only [sizeMod]; decide, by simp only [sizeMod]; decide⟩
  have hr : Reaches ['+', '[', '<', ']', '.'] blank ['<'] plusOne :=
    Reaches.next (Step.act (show prim '+' = some plus from rfl)
        (show plus blank = .done plusOne by decide))
      (Reaches.next (Step.enterLoop (show findMatch 0 ['<', ']', '.'] = some (['<'], ['.'])
          by decide) (show plusOne.cell = some 1 by decide) (by decide))
        (Reaches.here _ _))
  ⟨hw, hr, C17_cursor_in_bounds _ _ _ _ hw hr⟩

/-! ## The procedure table only grows -/

theorem left_cases (s : State) :
    ∃ x, left s = .fault 3 { s with mp := x } ∨ left s = .done { s with mp := x } := by
  refine ⟨(s.mp + sizeMod - 1) % sizeMod, ?_⟩
  by_cases hc : castInt ((s.mp + sizeMod - 1) % sizeMod) < 0
  · left
    simp only [left, if_pos hc]
  · right
    simp only [left, if_neg hc]

theorem left_procedures (s : State) : (left s).state.procedures = s.procedures := by
  obtain ⟨x, h | h⟩ := left_cases s <;> rw [h] <;> rfl

theorem prim_procedures (c : Char) (f : State → Outcome) (hp : prim c = some f) (s : State) :
    (f s).state.procedures = s.procedures := by
  rcases char_cases c with rfl | rfl | rfl | rfl | rfl | rfl | rfl | rfl | rfl | hc
  · have hf : plus = f := Option.some.inj hp
    subst hf
    unfold plus
    cases s.cell <;> rfl
  · have hf : minus = f := Option.some.inj hp
    subst hf
    unfold minus
    cases s.cell <;> rfl
  · have hf : right = f := Option.some.inj hp
    subst hf
    unfold right
    simp only []
    split_ifs <;> rfl
  · have hf : left = f := Option.some.inj hp
    subst hf
    exact left_procedures s
  · have hf : put = f := Option.some.inj hp
    subst hf
    unfold put
    cases s.cell with
    | none => rfl
    | some v => simp only []; split_ifs <;> rfl
  · have hf : get = f := Option.some.inj hp
    subst hf
    unfold get
    split_ifs
    · cases s.input <;> rfl
    · rfl
  · cases (show (none : Option (State → Outcome)) = some f from hp)
  · cases (show (none : Option (State → Outcome)) = some f from hp)
  · cases (show (none : Option (State → Outcome)) = some f from hp)
  · exfalso
    simp only [isInstr, Bool.or_eq_false_iff, decide_eq_false_iff_not] at hc
    obtain ⟨⟨⟨⟨⟨⟨⟨⟨h1, h2⟩, h3⟩, h4⟩, h5⟩, h6⟩, _⟩, _⟩, _⟩ := hc
    simp only [prim, if_neg h1, if_neg h2, if_neg h3, if_neg h4, if_neg h5, if_neg h6] at hp
    cases hp

theorem find_insert_of_find {t : Procedures} {k : Int} {b : SourceBlock}
    (h : find t k = some b) (k1 : Int) (b1 : SourceBlock) :
    find (insert t k1 b1) k = some b := by
  rw [find_insert, h]

theorem keeps_induct_hyps (k : Int) (b : SourceBlock) :
    (∀ (s t : State) (o : Outcome),
      (find s.procedures k = some b → find (Outcome.done t).state.procedures k = some b) →
      (find t.procedures k = some b → find o.state.procedures k = some b) →
      find s.procedures k = some b → find o.state.procedures k = some b) ∧
    (∀ (c : Char) (f : State → Outcome), prim c = some f → ∀ s : State,
      find s.procedures k = some b → find (f s).state.procedures k = some b) ∧
    (∀ (s : State) (k1 : Int) (b1 : SourceBlock), s.cell = some k1 →
      find s.procedures k = some b →
      find (Outcome.done { s with procedures := insert s.procedures k1 b1 }).state.procedures k
        = some b) ∧
    (∀ (s : State) (k1 : Int) (b1 : SourceBlock), s.cell = some k1 →
      find s.procedures k = some b →
      find (Outcome.undef .readPastEnd
        { s with procedures := insert s.procedures k1 b1 }).state.procedures k = some b) := by
  refine ⟨fun s t o h1 h2 h => h2 (h1 h), ?_, ?_, ?_⟩
  · intro c f hp s h
    rw [prim_procedures c f hp s]
    exact h
  · intro s k1 b1 _ h
    exact find_insert_of_find h k1 b1
  · intro s k1 b1 _ h
    exact find_insert_of_find h k1 b1

/-- C20: a binding of the key `k` to the block `b` that is in the procedure
table when the dispatch of `p` starts from `s` is in the table, unchanged, in
the state of every outcome of the run (a normal return, a fault, or undefined
behaviour), and in every state the dispatch gets to on its way, at any depth
of nested bodies. -/
theorem C20_table_grows (p q : SourceBlock) (s t : State) (o : Outcome) (k : Int)
    (b : SourceBlock) (hk : find s.procedures k = some b) :
    (Runs p s o → find o.state.procedures k = some b) ∧
    (Reaches p s q t → find t.procedures k = some b) := by
  obtain ⟨h2, h3, h4, h5⟩ := keeps_induct_hyps k b
  constructor
  · intro h
    exact runs_induct
      (fun s o => find s.procedures k = some b → find o.state.procedures k = some b)
      (fun s h => h) h2 h3 h4 h5 (fun s _ h => h) (fun s e h => h) h hk
  · intro h
    exact reaches_induct
      (fun s o => find s.procedures k = some b → find o.state.procedures k = some b)
      (fun s h => h) h2 h3 h4 h5 (fun s _ h => h) (fun s e h => h) h hk

theorem C20_table_grows_witness :
    find oneProcedure.procedures 1 = some ['[', '-', ']'] ∧
    ((Runs ['(', '+', ')', ':'] oneProcedure (.done (oneProcedure.setCell 0)) →
      find (Outcome.done (oneProcedure.setCell 0)).state.procedures 1 = some ['[', '-', ']']) ∧
    (Reaches ['(', '+', ')', ':'] oneProcedure [':'] oneProcedure →
      find oneProcedure.procedures 1 = some ['[', '-', ']'])) :=
  ⟨by decide, C20_table_grows _ _ _ _ _ _ _ (by decide)⟩

/-! ## Running one program after another -/

theorem findMatch_append : ∀ (p : SourceBlock) (n : Nat) (b r q : SourceBlock),
    findMatch n p = some (b, r) → findMatch n (p ++ q) = some (b, r ++ q) := by
  intro p
  induction p with
  | nil => intro n b r q h; simp [findMatch] at h
  | cons d cs ih =>
    intro n b r q h
    have key : ∀ m, (findMatch m cs).map (fun x => (d :: x.1, x.2)) = some (b, r) →
        (findMatch m (cs ++ q)).map (fun x => (d :: x.1, x.2)) = some (b, r ++ q) := by
      intro m hm
      cases hx : findMatch m cs with
      | none => simp [hx] at hm
      | some x =>
        obtain ⟨x1, x2⟩ := x
        rw [hx] at hm
        simp only [Option.map_some', Option.some.injEq, Prod.mk.injEq] at hm
        obtain ⟨rfl, rfl⟩ := hm
        rw [ih m x1 x2 q hx]
        rfl
    rw [findMatch] at h
    rw [List.cons_append, findMatch]
    by_cases h1 : d = '['
    · rw [if_pos h1] at h ⊢
      exact key _ h
    · rw [if_neg h1] at h ⊢
      by_cases h2 : d = ']'
      · rw [if_pos h2] at h ⊢
        by_cases h3 : n ≠ 0
        · rw [if_pos h3] at h ⊢
          exact key _ h
        · rw [if_neg h3] at h ⊢
          simp only [Option.some.injEq, Prod.mk.injEq] at h
          obtain ⟨rfl, rfl⟩ := h
          rfl
      · rw [if_neg h2] at h ⊢
        exact key _ h

theorem andThen_done {x : Outcome} {k : State → Option Outcome} {t : State}
    (h : x.andThen k = some (.done t)) : ∃ s1, x = .done s1 ∧ k s1 = some (.done t) := by
  cases x with
  | done s1 => exact ⟨s1, rfl, h⟩
  | fault e s1 => cases Option.some.inj h
  | undef u s1 => cases Option.some.inj h

theorem seq_done {r : Option Outcome} {k : State → Option Outcome} {t : State}
    (h : seq r k = some (.done t)) : ∃ s1, r = some (.done s1) ∧ k s1 = some (.done t) := by
  cases hx : r with
  | none => simp [seq, hx] at h
  | some x =>
    rw [hx] at h
    obtain ⟨s1, rfl, hk⟩ := andThen_done (show x.andThen k = some (.done t) from h)
    exact ⟨s1, rfl, hk⟩

theorem runs_append_of_done :
    ∀ (n : Nat) (p : SourceBlock) (s t : State), '(' ∉ p →
      interpret n p s = some (.done t) →
      ∀ q o, Runs (p ++ q) s o ↔ Runs q t o := by
  intro n
  induction n with
  | zero => intro p s t _ h; simp [interpret_zero] at h
  | succ n ih =>
    intro p s t hp h q o
    cases p with
    | nil =>
      rw [interpret_nil] at h
      cases Option.some.inj h
      rfl
    | cons c rest =>
      have hr : '(' ∉ rest := fun hm => hp (List.mem_cons_of_mem _ hm)
      rw [List.cons_append]
      have prim_case : ∀ f : State → Outcome, prim c = some f →
          (f s).andThen (interpret n rest) = some (.done t) →
          (Runs (c :: (rest ++ q)) s o ↔ Runs q t o) := by
        intro f hf hx
        obtain ⟨s1, h1, h2⟩ := andThen_done hx
        rw [runs_prim hf, h1]
        exact ih rest s1 t hr h2 q o
      rcases char_cases c with rfl | rfl | rfl | rfl | rfl | rfl | rfl | rfl | rfl | hc
      · rw [interpret_plus] at h; exact prim_case plus rfl h
      · rw [interpret_minus] at h; exact prim_case minus rfl h
      · rw [interpret_right] at h; exact prim_case right rfl h
      · rw [interpret_left] at h; exact prim_case left rfl h
      · rw [interpret_put] at h; exact prim_case put rfl h
      · rw [interpret_get] at h; exact prim_case get rfl h
      · rw [interpret_open] at h
        cases hm : findMatch 0 rest with
        | none =>
          simp only [hm] at h
          cases Option.some.inj h
        | some pr =>
          obtain ⟨body, after⟩ := pr
          simp only [hm] at h
          obtain ⟨s1, h1, h2⟩ := seq_done h
          have ha : '(' ∉ after := fun hx => hr (findMatch_mem _ _ _ _ hm _ (Or.inr hx))
          rw [runs_open (findMatch_append _ _ _ _ q hm)]
          constructor
          · rintro ⟨y, hy, hf⟩
            cases loops_unique hy ⟨n, h1⟩
            exact (ih after s1 t ha h2 q o).1 hf
          · intro hq
            exact ⟨.done s1, ⟨n, h1⟩, (ih after s1 t ha h2 q o).2 hq⟩
      · exact absurd (List.mem_cons_self _ _) hp
      · rw [interpret_call] at h
        cases hv : s.cell with
        | none =>
          simp only [hv] at h
          cases Option.some.inj h
        | some v =>
          simp only [hv] at h
          cases hf : find s.procedures v with
          | none =>
            simp only [hf] at h
            cases Option.some.inj h
          | some body =>
            simp only [hf] at h
            obtain ⟨s1, h1, h2⟩ := seq_done h
            rw [runs_call hv hf]
            constructor
            · rintro ⟨y, hy, hfo⟩
              cases runs_unique hy ⟨n, h1⟩
              exact (ih rest s1 t hr h2 q o).1 hfo
            · intro hq
              exact ⟨.done s1, ⟨n, h1⟩, (ih rest s1 t hr h2 q o).2 hq⟩
      · rw [interpret_skip _ _ _ _ hc] at h
        rw [runs_skip hc]
        exact ih rest s t hr h q o

/-- C19: if the program `p` contains no `(` and its run from `s` returns
normally in the state `t`, then the run of `p` followed by `q` from `s` has
exactly the outcomes of the run of `q` from `t`: the same final state (tape,
cursor, table, input and output) and the same fault or undefined behaviour,
if any; and it ends if and only if the run of `q` ends. -/
theorem C19_sequential_composition (p q : SourceBlock) (s t : State) (hp : '(' ∉ p)
    (h : Runs p s (.done t)) :
    ∀ o, Runs (p ++ q) s o ↔ Runs q t o := by
  obtain ⟨n, hn⟩ := h
  exact runs_append_of_done n p s t hp hn q

theorem C19_sequential_composition_witness :
    '(' ∉ ['[', '-', ']'] ∧ Runs ['[', '-', ']'] oneProcedure (.done (oneProcedure.setCell 0)) ∧
    (∀ o, Runs (['[', '-', ']'] ++ ['+', '.']) oneProcedure o ↔
      Runs ['+', '.'] (oneProcedure.setCell 0) o) :=
  have h : Runs ['[', '-', ']'] oneProcedure (.done (oneProcedure.setCell 0)) :=
    ⟨5, by decide!⟩
  ⟨by decide, h, C19_sequential_composition _ _ _ _ (by decide) h⟩

/-! ## Procedure 2 of the header comment -/

theorem cell_tape (s : State) (m : Mem) (j : Nat) : (s.tape m j).cell = m[j]? := rfl

theorem runs_plus_tape {s : State} {m : Mem} {j : Nat} {v : Int} (h : m[j]? = some v)
    (r : SourceBlock) (o : Outcome) :
    Runs ('+' :: r) (s.tape m j) o ↔ Runs r (s.tape (m.set j (wrapCell (v + 1))) j) o :=
  runs_single_plus (show (s.tape m j).cell = some v from h) r o

theorem runs_minus_tape {s : State} {m : Mem} {j : Nat} {v : Int} (h : m[j]? = some v)
    (r : SourceBlock) (o : Outcome) :
    Runs ('-' :: r) (s.tape m j) o ↔ Runs r (s.tape (m.set j (wrapCell (v - 1))) j) o := by
  rw [runs_minus]
  simp only [minus, cell_tape, h, Outcome.follow]
  rfl

theorem runs_right_tape {s : State} {m : Mem} {j : Nat} (h : j + 1 < m.length)
    (hsz : m.length < sizeMod) (r : SourceBlock) (o : Outcome) :
    Runs ('>' :: r) (s.tape m j) o ↔ Runs r (s.tape m (j + 1)) o := by
  have hj : (s.tape m j).mp < (s.tape m j).mem.length := Nat.lt_of_succ_lt h
  have hne : ¬ ((s.tape m j).mp + 1 = (s.tape m j).mem.length) := Nat.ne_of_lt h
  rw [runs_right, right_eq _ hj hsz, if_neg hne]
  rfl

theorem runs_left_tape {s : State} {m : Mem} {j : Nat} (h : j + 1 ≤ 2147483648)
    (r : SourceBlock) (o : Outcome) :
    Runs ('<' :: r) (s.tape m (j + 1)) o ↔ Runs r (s.tape m j) o := by
  rw [runs_left, left_ok (s.tape m (j + 1)) (Nat.succ_pos j) h]
  rfl

theorem runs_rights {s : State} {m : Mem} (hsz : m.length < sizeMod) :
    ∀ (d j : Nat), j + d < m.length → ∀ r o,
      Runs (List.replicate d '>' ++ r) (s.tape m j) o ↔ Runs r (s.tape m (j + d)) o := by
  intro d
  induction d with
  | zero => intro j _ r o; rfl
  | succ d ih =>
    intro j h r o
    rw [List.replicate_succ, List.cons_append, runs_right_tape (by omega) hsz,
      ih (j + 1) (by omega)]
    rw [show j + 1 + d = j + (d + 1) by omega]

theorem runs_lefts {s : State} {m : Mem} :
    ∀ (d j : Nat), j + d ≤ 2147483648 → ∀ r o,
      Runs (List.replicate d '<' ++ r) (s.tape m (j + d)) o ↔ Runs r (s.tape m j) o := by
  intro d
  induction d with
  | zero => intro j _ r o; rfl
  | succ d ih =>
    intro j h r o
    rw [List.replicate_succ, List.cons_append, show j + (d + 1) = (j + d) + 1 by omega,
      runs_left_tape (by omega), ih j (by omega)]

/-- One pass of a transfer loop: the cell `d` places to the right is
incremented and the current cell decremented. -/
theorem runs_transfer {s : State} {m : Mem} {i d : Nat} {a c : Int} (hd : 1 ≤ d)
    (hlen : i + d < m.length) (hsz : m.length < sizeMod) (hi : i + d ≤ 2147483648)
    (ha : m[i]? = some a) (hc : m[i + d]? = some c) (r : SourceBlock) (o : Outcome) :
    Runs (transfer d ++ r) (s.tape m i) o ↔
      Runs r (s.tape ((m.set (i + d) (wrapCell (c + 1))).set i (wrapCell (a - 1))) i) o := by
  have ha1 : (m.set (i + d) (wrapCell (c + 1)))[i]? = some a := by
    rw [List.getElem?_set_ne (by omega)]
    exact ha
  unfold transfer
  rw [List.append_assoc, runs_rights hsz d i hlen, List.cons_append, runs_plus_tape hc,
    List.append_assoc, runs_lefts d i hi, List.cons_append, List.nil_append,
    runs_minus_tape ha1]

theorem findMatch_plain : ∀ (b : SourceBlock), (∀ c ∈ b, c ≠ '[' ∧ c ≠ ']') →
    ∀ (n : Nat) (r : SourceBlock),
      findMatch n (b ++ ']' :: r) =
        if n = 0 then some (b, r) else (findMatch (n - 1) r).map fun x => (b ++ ']' :: x.1, x.2) := by
  intro b
  induction b with
  | nil =>
    intro _ n r
    rw [List.nil_append, findMatch, if_neg (by decide), if_pos rfl]
    by_cases hn : n = 0
    · simp [hn]
    · simp [hn]
  | cons d b ih =>
    intro hb n r
    obtain ⟨h1, h2⟩ := hb d (List.mem_cons_self _ _)
    rw [List.cons_append, findMatch, if_neg h1, if_neg h2,
      ih (fun c hc => hb c (List.mem_cons_of_mem _ hc)) n r]
    by_cases hn : n = 0
    · simp [hn]
    · simp only [if_neg hn, Option.map_map]
      rfl

theorem transfer_plain (d : Nat) : ∀ c ∈ transfer d, c ≠ '[' ∧ c ≠ ']' := by
  intro c hc
  simp only [transfer, List.mem_append, List.mem_cons, List.mem_replicate,
    List.mem_singleton, List.not_mem_nil, or_false] at hc
  rcases hc with ⟨_, rfl⟩ | rfl | ⟨_, rfl⟩ | rfl <;> decide

theorem findMatch_transfer (d : Nat) (r : SourceBlock) :
    findMatch 0 (transfer d ++ ']' :: r) = some (transfer d, r) := by
  rw [findMatch_plain _ (transfer_plain d), if_pos rfl]

/-- A whole transfer loop: the value `a` of the current cell is added to the
cell `d` places to the right, and the current cell is left at 0. -/
theorem loops_transfer {s : State} {i d : Nat} (hd : 1 ≤ d) (hi : i + d ≤ 2147483648) :
    ∀ (a : Nat) (m : Mem) (c : Int), i + d < m.length → m.length < sizeMod →
      a < 2147483648 → m[i]? = some (a : Int) → m[i + d]? = some c → wrapCell c = c →
      Loops (transfer d) (s.tape m i)
        (.done (s.tape ((m.set (i + d) (wrapCell (c + a))).set i 0) i)) := by
  intro a
  induction a with
  | zero =>
    intro m c _ _ _ ha hc hr
    have e : (m.set (i + d) (wrapCell (c + ((0 : Nat) : Int)))).set i 0 = m := by
      rw [Int.ofNat_zero, Int.add_zero, hr, list_set_self m (i + d) c hc]
      exact list_set_self m i 0 ha
    rw [e]
    exact (loops_zero (show (s.tape m i).cell = some 0 from ha) _).2 rfl
  | succ a ih =>
    intro m c hlen hsz hA ha hc hr
    have hne : (((a + 1 : Nat) : Int)) ≠ 0 := by omega
    have hlen1 : ((m.set (i + d) (wrapCell (c + 1))).set i
        (wrapCell (((a + 1 : Nat) : Int) - 1))).length = m.length := by
      rw [List.length_set, List.length_set]
    have hpass : Runs (transfer d) (s.tape m i)
        (.done (s.tape ((m.set (i + d) (wrapCell (c + 1))).set i
          (wrapCell (((a + 1 : Nat) : Int) - 1))) i)) := by
      have := runs_transfer (s := s) hd hlen hsz hi ha hc [] (.done (s.tape
        ((m.set (i + d) (wrapCell (c + 1))).set i (wrapCell (((a + 1 : Nat) : Int) - 1))) i))
      rw [List.append_nil] at this
      exact this.2 ((runs_nil _ _).2 rfl)
    have hw : wrapCell (((a + 1 : Nat) : Int) - 1) = (a : Int) := by
      unfold wrapCell; omega
    have step := ih ((m.set (i + d) (wrapCell (c + 1))).set i
        (wrapCell (((a + 1 : Nat) : Int) - 1))) (wrapCell (c + 1))
      (by rw [hlen1]; exact hlen) (by rw [hlen1]; exact hsz) (by omega)
      (by rw [List.getElem?_set_self (by rw [List.length_set]; omega), hw])
      (by
        rw [List.getElem?_set_ne (by omega),
          List.getElem?_set_self hlen])
      (by unfold wrapCell; omega)
    have e : (((m.set (i + d) (wrapCell (c + 1))).set i
        (wrapCell (((a + 1 : Nat) : Int) - 1))).set (i + d)
          (wrapCell (wrapCell (c + 1) + (a : Int)))).set i 0 =
        (m.set (i + d) (wrapCell (c + ((a + 1 : Nat) : Int)))).set i 0 := by
      rw [List.set_comm _ _ _ (show i ≠ i + d by omega), List.set_set, List.set_set,
        wrapCell_wrapCell_add]
      have : c + 1 + (a : Int) = c + ((a + 1 : Nat) : Int) := by push_cast; ring
      rw [this]
    rw [e] at step
    exact (loops_nonzero (show (s.tape m i).cell = some ((a + 1 : Nat) : Int) from ha) hne _).2
      ⟨_, hpass, step⟩

/-- The loop `[` transfer `]` in front of `r`. -/
theorem runs_transfer_loop {s : State} {i d : Nat} (hd : 1 ≤ d) (hi : i + d ≤ 2147483648)
    {a : Nat} {m : Mem} {c : Int} (hlen : i + d < m.length) (hsz : m.length < sizeMod)
    (hA : a < 2147483648) (ha : m[i]? = some (a : Int)) (hc : m[i + d]? = some c)
    (hr : wrapCell c = c) (r : SourceBlock) (o : Outcome) :
    Runs ('[' :: (transfer d ++ ']' :: r)) (s.tape m i) o ↔
      Runs r (s.tape ((m.set (i + d) (wrapCell (c + a))).set i 0) i) o := by
  have hl := loops_transfer (s := s) hd hi a m c hlen hsz hA ha hc hr
  rw [runs_open (findMatch_transfer d r)]
  constructor
  · rintro ⟨y, hy, hf⟩
    cases loops_unique hy hl
    exact hf
  · intro h
    exact ⟨_, hl, h⟩

theorem addBody_eq :
    addBody = List.replicate 2 '<' ++ ('[' :: (transfer 2 ++ ']' ::
      (List.replicate 1 '>' ++ ('[' :: (transfer 1 ++ ']' :: (List.replicate 1 '>' ++ [])))))) := by
  decide

/-- The body of procedure 2 run with the cursor on cell `i + 2`. -/
theorem runs_addBody {s : State} {m : Mem} {i a b : Nat} (hlen : i + 2 < m.length)
    (hsz : m.length < sizeMod) (hi : i + 2 ≤ 2147483648) (hA : a < 2147483648)
    (hB : b < 2147483648) (ha : m[i]? = some (a : Int)) (hb : m[i + 1]? = some (b : Int))
    (hk : m[i + 2]? = some 2) (o : Outcome) :
    Runs addBody (s.tape m (i + 2)) o ↔
      o = .done (s.tape ((((m.set (i + 2) (wrapCell (2 + a))).set i 0).set (i + 2)
        (wrapCell (wrapCell (2 + a) + b))).set (i + 1) 0) (i + 2)) := by
  have hb1 : ((m.set (i + 2) (wrapCell (2 + (a : Int)))).set i 0)[i + 1]? = some (b : Int) := by
    rw [List.getElem?_set_ne (by omega), List.getElem?_set_ne (by omega)]
    exact hb
  have hk1 : ((m.set (i + 2) (wrapCell (2 + (a : Int)))).set i 0)[i + 1 + 1]? =
      some (wrapCell (2 + (a : Int))) := by
    rw [List.getElem?_set_ne (by omega), List.getElem?_set_self hlen]
  rw [addBody_eq, runs_lefts 2 i hi,
    runs_transfer_loop (by decide) hi hlen hsz hA ha hk (by decide),
    runs_rights (by rw [List.length_set, List.length_set]; exact hsz) 1 i
      (by rw [List.length_set, List.length_set]; omega),
    runs_transfer_loop (by decide) (by omega)
      (by rw [List.length_set, List.length_set]; omega)
      (by rw [List.length_set, List.length_set]; exact hsz) hB hb1 hk1
      (by unfold wrapCell; omega),
    runs_rights (by simp only [List.length_set]; exact hsz) 1 (i + 1)
      (by simp only [List.length_set]; omega),
    runs_nil]

/-- C14, as stated, fails: with the parameters 3 and 5 and the key 2 on the
tape and procedure 2 defined as in the header comment, `:` returns with 10 in
the current cell, not with 3 + 5: the key is still in the cell when the two
transfers add to it. -/
theorem C14_counterexample :
    find threeFive.procedures 2 = some addBody ∧
    Runs [':'] threeFive (.done { threeFive with mem := [0, 0, 10] }) ∧
    ¬ ∃ t, Runs [':'] threeFive (.done t) ∧ t.cell = some (3 + 5) := by
  have h : Runs [':'] threeFive (.done { threeFive with mem := [0, 0, 10] }) :=
    ⟨100, by decide!⟩
  refine ⟨by decide, h, ?_⟩
  rintro ⟨t, ht, hc⟩
  cases runs_unique ht h
  exact absurd hc (by decide)

/-- C14, amended: let procedure 2 be bound to the body `<<[>>+<<-]>[>+<-]>`, let
the cursor be on cell `i + 2`, not above 2^31, and let the cells `i`, `i + 1`
and `i + 2` hold `a`, `b` (two non-negative `int`s) and the key 2.  Then `:`
returns normally in a state `t` from which the dispatch goes on: the cursor is
back on cell `i + 2`, that cell holds `a + b + 2` (reduced to the range of
`int`), the cells `i` and `i + 1` hold 0, and every other cell, the table, the
input and the output are unchanged. -/
theorem C14_add_procedure (s : State) (i a b : Nat) (hmp : s.mp = i + 2)
    (hlen : i + 2 < s.mem.length) (hsz : s.mem.length < sizeMod) (hi : i + 2 ≤ 2147483648)
    (hA : a < 2147483648) (hB : b < 2147483648) (ha : s.mem[i]? = some (a : Int))
    (hb : s.mem[i + 1]? = some (b : Int)) (hk : s.mem[i + 2]? = some 2)
    (hf : find s.procedures 2 = some addBody) :
    ∃ t, (∀ r o, Runs (':' :: r) s o ↔ Runs r t o) ∧ Runs [':'] s (.done t) ∧
      t.mp = i + 2 ∧ t.mem[i + 2]? = some (wrapCell (a + b + 2)) ∧
      t.mem[i]? = some 0 ∧ t.mem[i + 1]? = some 0 ∧
      (∀ j, j ≠ i → j ≠ i + 1 → j ≠ i + 2 → t.mem[j]? = s.mem[j]?) ∧
      t.procedures = s.procedures ∧ t.input = s.input ∧ t.output = s.output ∧
      (a + b + 2 < 2147483648 → wrapCell (a + b + 2) = a + b + 2) := by
  have hs : s = s.tape s.mem (i + 2) := by
    cases s
    simp only [State.tape] at hmp ⊢
    rw [hmp]
  have hcell : s.cell = some 2 := by
    unfold State.cell
    rw [hmp]
    exact hk
  have hbody := fun o => runs_addBody (s := s) hlen hsz hi hA hB ha hb hk o
  rw [← hs] at hbody
  have hcall : ∀ r o, Runs (':' :: r) s o ↔
      Runs r (s.tape ((((s.mem.set (i + 2) (wrapCell (2 + a))).set i 0).set (i + 2)
        (wrapCell (wrapCell (2 + a) + b))).set (i + 1) 0) (i + 2)) o := by
    intro r o
    rw [runs_call hcell hf]
    constructor
    · rintro ⟨x, hx, hfo⟩
      rw [(hbody x).1 hx] at hfo
      exact hfo
    · intro h
      exact ⟨_, (hbody _).2 rfl, h⟩
  have hY : wrapCell (wrapCell (2 + (a : Int)) + (b : Int)) = wrapCell ((a : Int) + b + 2) := by
    unfold wrapCell; omega
  refine ⟨_, hcall, (hcall [] _).2 ((runs_nil _ _).2 rfl), rfl, ?_, ?_, ?_, ?_, rfl, rfl, rfl, ?_⟩
  · show ((((s.mem.set (i + 2) (wrapCell (2 + a))).set i 0).set (i + 2)
        (wrapCell (wrapCell (2 + a) + b))).set (i + 1) 0)[i + 2]? = _
    rw [List.getElem?_set_ne (by omega),
      List.getElem?_set_self (by rw [List.length_set, List.length_set]; exact hlen), hY]
  · show ((((s.mem.set (i + 2) (wrapCell (2 + a))).set i 0).set (i + 2)
        (wrapCell (wrapCell (2 + a) + b))).set (i + 1) 0)[i]? = _
    rw [List.getElem?_set_ne (by omega), List.getElem?_set_ne (by omega),
      List.getElem?_set_self (by rw [List.length_set]; omega)]
  · show ((((s.mem.set (i + 2) (wrapCell (2 + a))).set i 0).set (i + 2)
        (wrapCell (wrapCell (2 + a) + b))).set (i + 1) 0)[i + 1]? = _
    rw [List.getElem?_set_self (by simp only [List.length_set]; omega)]
  · intro j h1 h2 h3
    show ((((s.mem.set (i + 2) (wrapCell (2 + a))).set i 0).set (i + 2)
        (wrapCell (wrapCell (2 + a) + b))).set (i + 1) 0)[j]? = _
    rw [List.getElem?_set_ne (by omega), List.getElem?_set_ne (by omega),
      List.getElem?_set_ne (by omega), List.getElem?_set_ne (by omega)]
  · intro h
    unfold wrapCell
    omega

theorem C14_add_procedure_witness :
    threeFive.mp = 0 + 2 ∧ 0 + 2 < threeFive.mem.length ∧ threeFive.mem.length < sizeMod ∧
    0 + 2 ≤ 2147483648 ∧ 3 < 2147483648 ∧ 5 < 2147483648 ∧
    threeFive.mem[0]? = some ((3 : Nat) : Int) ∧ threeFive.mem[0 + 1]? = some ((5 : Nat) : Int) ∧
    threeFive.mem[0 + 2]? = some 2 ∧ find threeFive.procedures 2 = some addBody ∧
    (∃ t, (∀ r o, Runs (':' :: r) threeFive o ↔ Runs r t o) ∧ Runs [':'] threeFive (.done t) ∧
      t.mp = 0 + 2 ∧ t.mem[0 + 2]? = some (wrapCell ((3 : Nat) + (5 : Nat) + 2)) ∧
      t.mem[0]? = some 0 ∧ t.mem[0 + 1]? = some 0 ∧
      (∀ j, j ≠ 0 → j ≠ 0 + 1 → j ≠ 0 + 2 → t.mem[j]? = threeFive.mem[j]?) ∧
      t.procedures = threeFive.procedures ∧ t.input = threeFive.input ∧
      t.output = threeFive.output ∧
      ((3 : Nat) + 5 + 2 < 2147483648 →
        wrapCell ((3 : Nat) + (5 : Nat) + 2) = (3 : Nat) + (5 : Nat) + 2)) :=
  ⟨by decide, by decide, by decide, by decide, by decide, by decide, by decide, by decide,
    by decide, by decide,
    C14_add_procedure threeFive 0 3 5 (by decide) (by decide) (by decide) (by decide)
      (by decide) (by decide) (by decide) (by decide) (by decide) (by decide)⟩

/-! ## Characters that are comments -/

theorem same_refl (c : Char) : ∀ b : SourceBlock, Same c b b
  | [] => Same.nil
  | d :: b => Same.cons d (same_refl c b)

theorem same_symm {c : Char} {b b1 : SourceBlock} (h : Same c b b1) : Same c b1 b := by
  induction h with
  | nil => exact Same.nil
  | cons d _ ih => exact Same.cons d ih
  | padLeft _ ih => exact Same.padRight ih
  | padRight _ ih => exact Same.padLeft ih

theorem same_insert (c : Char) : ∀ (p1 p2 : SourceBlock), Same c (p1 ++ p2) (p1 ++ c :: p2)
  | [], p2 => Same.padRight (same_refl c p2)
  | d :: p1, p2 => Same.cons d (same_insert c p1 p2)

theorem sameTable_refl (c : Char) : ∀ t : Procedures, SameTable c t t
  | [] => SameTable.nil
  | (k, b) :: t => SameTable.cons k (same_refl c b) (sameTable_refl c t)

theorem sameTable_symm {c : Char} {t t1 : Procedures} (h : SameTable c t t1) :
    SameTable c t1 t := by
  induction h with
  | nil => exact SameTable.nil
  | cons k hb _ ih => exact SameTable.cons k (same_symm hb) ih

theorem alike_refl (c : Char) (s : State) : Alike c s s :=
  ⟨s.procedures, rfl, sameTable_refl c _⟩

theorem alike_symm {c : Char} {s s1 : State} (h : Alike c s s1) : Alike c s1 s := by
  obtain ⟨t1, rfl, ht⟩ := h
  exact ⟨s.procedures, rfl, sameTable_symm ht⟩

theorem alikeOutcome_symm {c : Char} {o o1 : Outcome} (h : AlikeOutcome c o o1) :
    AlikeOutcome c o1 o := by
  cases o with
  | done s => obtain ⟨s1, rfl, hs⟩ := h; exact ⟨s, rfl, alike_symm hs⟩
  | fault e s => obtain ⟨s1, rfl, hs⟩ := h; exact ⟨s, rfl, alike_symm hs⟩
  | undef u s => obtain ⟨s1, rfl, hs⟩ := h; exact ⟨s, rfl, alike_symm hs⟩

theorem alikeOutcome_map {c : Char} {s : State} {t1 : Procedures}
    (ht : SameTable c s.procedures t1) (x : Outcome) (hx : x.state.procedures = s.procedures) :
    AlikeOutcome c x (x.map fun u => u.withTable t1) := by
  cases x with
  | done u => exact ⟨_, rfl, t1, rfl, by rw [show u.procedures = s.procedures from hx]; exact ht⟩
  | fault e u =>
    exact ⟨_, rfl, t1, rfl, by rw [show u.procedures = s.procedures from hx]; exact ht⟩
  | undef e u =>
    exact ⟨_, rfl, t1, rfl, by rw [show u.procedures = s.procedures from hx]; exact ht⟩

theorem find_same {c : Char} {t t1 : Procedures} (h : SameTable c t t1) (k : Int) :
    (find t k = none ∧ find t1 k = none) ∨
      ∃ b b1, find t k = some b ∧ find t1 k = some b1 ∧ Same c b b1 := by
  induction h with
  | nil => exact Or.inl ⟨rfl, rfl⟩
  | cons k1 hb _ ih =>
    by_cases e : k = k1
    · exact Or.inr ⟨_, _, by simp [find, e], by simp [find, e], hb⟩
    · simpa only [find, if_neg e] using ih

theorem sameTable_append {c : Char} {t t1 : Procedures} (h : SameTable c t t1) (k : Int)
    {b b1 : SourceBlock} (hb : Same c b b1) :
    SameTable c (t ++ [(k, b)]) (t1 ++ [(k, b1)]) := by
  induction h with
  | nil => exact SameTable.cons k hb SameTable.nil
  | cons k1 hb1 _ ih => exact SameTable.cons k1 hb1 ih

theorem insert_same {c : Char} {t t1 : Procedures} (h : SameTable c t t1) (k : Int)
    {b b1 : SourceBlock} (hb : Same c b b1) :
    SameTable c (insert t k b) (insert t1 k b1) := by
  unfold insert
  rcases find_same h k with ⟨h1, h2⟩ | ⟨x, x1, h1, h2, _⟩
  · rw [h1, h2]
    exact sameTable_append h k hb
  · rw [h1, h2]
    exact h

theorem matchAlike_cons {c : Char} (d : Char)
    {x x1 : Option (SourceBlock × SourceBlock)} (h : MatchAlike c x x1) :
    MatchAlike c (x.map fun p => (d :: p.1, p.2)) (x1.map fun p => (d :: p.1, p.2)) := by
  cases x with
  | none => cases x1 with
    | none => trivial
    | some y1 => exact h
  | some y => cases x1 with
    | none => exact h
    | some y1 => exact ⟨Same.cons d h.1, h.2⟩

theorem matchAlike_padLeft {c : Char}
    {x x1 : Option (SourceBlock × SourceBlock)} (h : MatchAlike c x x1) :
    MatchAlike c (x.map fun p => (c :: p.1, p.2)) x1 := by
  cases x with
  | none => cases x1 with
    | none => trivial
    | some y1 => exact h
  | some y => cases x1 with
    | none => exact h
    | some y1 => exact ⟨Same.padLeft h.1, h.2⟩

theorem matchAlike_padRight {c : Char}
    {x x1 : Option (SourceBlock × SourceBlock)} (h : MatchAlike c x x1) :
    MatchAlike c x (x1.map fun p => (c :: p.1, p.2)) := by
  cases x with
  | none => cases x1 with
    | none => trivial
    | some y1 => exact h
  | some y => cases x1 with
    | none => exact h
    | some y1 => exact ⟨Same.padRight h.1, h.2⟩

theorem findMatch_other {c : Char} (h1 : c ≠ '[') (h2 : c ≠ ']') (k : Nat) (b : SourceBlock) :
    findMatch k (c :: b) = (findMatch k b).map fun p => (c :: p.1, p.2) := by
  rw [findMatch, if_neg h1, if_neg h2]

theorem same_findMatch {c : Char} (h1 : c ≠ '[') (h2 : c ≠ ']') {b b1 : SourceBlock}
    (h : Same c b b1) : ∀ k, MatchAlike c (findMatch k b) (findMatch k b1) := by
  induction h with
  | nil => intro k; simp only [findMatch]; trivial
  | @cons d b b1 hb ih =>
    intro k
    rw [findMatch, findMatch]
    by_cases e1 : d = '['
    · rw [if_pos e1, if_pos e1]
      exact matchAlike_cons d (ih _)
    · rw [if_neg e1, if_neg e1]
      by_cases e2 : d = ']'
      · rw [if_pos e2, if_pos e2]
        by_cases e3 : k ≠ 0
        · rw [if_pos e3, if_pos e3]
          exact matchAlike_cons d (ih _)
        · rw [if_neg e3, if_neg e3]
          exact ⟨Same.nil, hb⟩
      · rw [if_neg e2, if_neg e2]
        exact matchAlike_cons d (ih _)
  | padLeft _ ih =>
    intro k
    rw [findMatch_other h1 h2]
    exact matchAlike_padLeft (ih k)
  | padRight _ ih =>
    intro k
    rw [findMatch_other h1 h2]
    exact matchAlike_padRight (ih k)

theorem captured_cons (d : Char) (b : SourceBlock) :
    captured (d :: b) = if d = ')' then [] else d :: captured b := by
  unfold captured
  rw [List.takeWhile_cons]
  by_cases e : d = ')' <;> simp [e]

theorem afterCapture_cons (d : Char) (b : SourceBlock) :
    afterCapture (d :: b) = if d = ')' then d :: b else afterCapture b := by
  unfold afterCapture
  rw [List.dropWhile_cons]
  by_cases e : d = ')' <;> simp [e]

theorem same_capture {c : Char} (h3 : c ≠ ')') {b b1 : SourceBlock} (h : Same c b b1) :
    Same c (captured b) (captured b1) ∧
    ((afterCapture b = [] ∧ afterCapture b1 = []) ∨
      ∃ a a1, afterCapture b = ')' :: a ∧ afterCapture b1 = ')' :: a1 ∧ Same c a a1) := by
  induction h with
  | nil => exact ⟨Same.nil, Or.inl ⟨rfl, rfl⟩⟩
  | @cons d b b1 hb ih =>
    rw [captured_cons, captured_cons, afterCapture_cons, afterCapture_cons]
    by_cases e : d = ')'
    · rw [if_pos e, if_pos e, if_pos e, if_pos e, e]
      exact ⟨Same.nil, Or.inr ⟨b, b1, rfl, rfl, hb⟩⟩
    · rw [if_neg e, if_neg e, if_neg e, if_neg e]
      exact ⟨Same.cons d ih.1, ih.2⟩
  | padLeft _ ih =>
    rw [captured_cons, afterCapture_cons, if_neg h3, if_neg h3]
    exact ⟨Same.padLeft ih.1, ih.2⟩
  | padRight _ ih =>
    rw [captured_cons, afterCapture_cons, if_neg h3, if_neg h3]
    exact ⟨Same.padRight ih.1, ih.2⟩

theorem cell_withTable (s : State) (t1 : Procedures) : (s.withTable t1).cell = s.cell := rfl

theorem prim_withTable (c : Char) (f : State → Outcome) (hp : prim c = some f) (s : State)
    (t1 : Procedures) : f (s.withTable t1) = (f s).map fun u => u.withTable t1 := by
  rcases char_cases c with rfl | rfl | rfl | rfl | rfl | rfl | rfl | rfl | rfl | hc
  · have hf : plus = f := Option.some.inj hp
    subst hf
    unfold plus
    rw [cell_withTable]
    cases s.cell <;> rfl
  · have hf : minus = f := Option.some.inj hp
    subst hf
    unfold minus
    rw [cell_withTable]
    cases s.cell <;> rfl
  · have hf : right = f := Option.some.inj hp
    subst hf
    unfold right
    simp only [State.withTable]
    split_ifs <;> rfl
  · have hf : left = f := Option.some.inj hp
    subst hf
    unfold left
    simp only [State.withTable]
    split_ifs <;> rfl
  · have hf : put = f := Option.some.inj hp
    subst hf
    unfold put
    rw [cell_withTable]
    cases s.cell with
    | none => rfl
    | some v => simp only []; split_ifs <;> rfl
  · have hf : get = f := Option.some.inj hp
    subst hf
    by_cases hlt : s.mp < s.mem.length
    · cases hi : s.input with
      | nil =>
        rw [get_eof hlt hi,
          get_eof (show (s.withTable t1).mp < (s.withTable t1).mem.length from hlt)
            (show (s.withTable t1).input = [] from hi)]
        rfl
      | cons u us =>
        rw [get_unit hlt hi,
          get_unit (show (s.withTable t1).mp < (s.withTable t1).mem.length from hlt)
            (show (s.withTable t1).input = u :: us from hi)]
        rfl
    · unfold get
      rw [if_neg hlt,
        if_neg (show ¬ (s.withTable t1).mp < (s.withTable t1).mem.length from hlt)]
      rfl
  · cases (show (none : Option (State → Outcome)) = some f from hp)
  · cases (show (none : Option (State → Outcome)) = some f from hp)
  · cases (show (none : Option (State → Outcome)) = some f from hp)
  · exfalso
    simp only [isInstr, Bool.or_eq_false_iff, decide_eq_false_iff_not] at hc
    obtain ⟨⟨⟨⟨⟨⟨⟨⟨h1, h2⟩, h3⟩, h4⟩, h5⟩, h6⟩, _⟩, _⟩, _⟩ := hc
    simp only [prim, if_neg h1, if_neg h2, if_neg h3, if_neg h4, if_neg h5, if_neg h6] at hp
    cases hp

theorem prim_alike {c : Char} {d : Char} {f : State → Outcome} (hp : prim d = some f)
    {s s1 : State} (hs : Alike c s s1) : AlikeOutcome c (f s) (f s1) := by
  obtain ⟨t1, rfl, ht⟩ := hs
  rw [prim_withTable d f hp s t1]
  exact alikeOutcome_map ht (f s) (prim_procedures d f hp s)

theorem interpret_prim {d : Char} {f : State → Outcome} (hp : prim d = some f) (n : Nat)
    (r : SourceBlock) (s : State) :
    interpret (n + 1) (d :: r) s = (f s).andThen (interpret n r) := by
  rcases char_cases d with rfl | rfl | rfl | rfl | rfl | rfl | rfl | rfl | rfl | hc
  · have hf : plus = f := Option.some.inj hp
    rw [← hf]; exact interpret_plus n r s
  · have hf : minus = f := Option.some.inj hp
    rw [← hf]; exact interpret_minus n r s
  · have hf : right = f := Option.some.inj hp
    rw [← hf]; exact interpret_right n r s
  · have hf : left = f := Option.some.inj hp
    rw [← hf]; exact interpret_left n r s
  · have hf : put = f := Option.some.inj hp
    rw [← hf]; exact interpret_put n r s
  · have hf : get = f := Option.some.inj hp
    rw [← hf]; exact interpret_get n r s
  · cases (show (none : Option (State → Outcome)) = some f from hp)
  · cases (show (none : Option (State → Outcome)) = some f from hp)
  · cases (show (none : Option (State → Outcome)) = some f from hp)
  · exfalso
    simp only [isInstr, Bool.or_eq_false_iff, decide_eq_false_iff_not] at hc
    obtain ⟨⟨⟨⟨⟨⟨⟨⟨h1, h2⟩, h3⟩, h4⟩, h5⟩, h6⟩, _⟩, _⟩, _⟩ := hc
    simp only [prim, if_neg h1, if_neg h2, if_neg h3, if_neg h4, if_neg h5, if_neg h6] at hp
    cases hp

theorem runs_define_nocell {rest : SourceBlock} {s : State} (hc : s.cell = none)
    (o : Outcome) : Runs ('(' :: rest) s o ↔ o = .undef .cellOutOfRange s := by
  rw [runs_iff_succ]
  simp only [interpret_define, hc, Option.some.injEq, exists_const]
  exact eq_comm

theorem runs_define_past {rest : SourceBlock} {s : State} {k : Int} (hc : s.cell = some k)
    (ha : afterCapture rest = []) (o : Outcome) :
    Runs ('(' :: rest) s o ↔
      o = .undef .readPastEnd { s with procedures := insert s.procedures k (captured rest) } := by
  rw [runs_iff_succ]
  simp only [interpret_define, hc, ha, Option.some.injEq, exists_const]
  exact eq_comm

theorem runs_call_nocell {r : SourceBlock} {s : State} (hc : s.cell = none)
    (o : Outcome) : Runs (':' :: r) s o ↔ o = .undef .cellOutOfRange s := by
  rw [runs_iff_succ]
  simp only [interpret_call, hc, Option.some.injEq, exists_const]
  exact eq_comm

theorem loops_nocell {body : SourceBlock} {s : State} (hc : s.cell = none)
    (o : Outcome) : Loops body s o ↔ o = .undef .cellOutOfRange s := by
  rw [loops_iff_succ]
  simp only [loop_succ, hc, Option.some.injEq, exists_const]
  exact eq_comm

theorem alike_follow {c : Char} {R : State → Outcome → Prop} {k : State → Option Outcome}
    {x x1 o : Outcome} (hx : AlikeOutcome c x x1)
    (hk : ∀ t t1 o, Alike c t t1 → k t = some o → ∃ o1, R t1 o1 ∧ AlikeOutcome c o o1)
    (h : x.andThen k = some o) : ∃ o1, x1.follow R o1 ∧ AlikeOutcome c o o1 := by
  cases x with
  | done t =>
    obtain ⟨t1, rfl, ht⟩ := hx
    exact hk t t1 o ht h
  | fault e t =>
    cases Option.some.inj h
    obtain ⟨t1, rfl, ht⟩ := hx
    exact ⟨.fault e t1, rfl, t1, rfl, ht⟩
  | undef u t =>
    cases Option.some.inj h
    obtain ⟨t1, rfl, ht⟩ := hx
    exact ⟨.undef u t1, rfl, t1, rfl, ht⟩

theorem alike_follow_seq {c : Char} {Q : Outcome → Prop} {R : State → Outcome → Prop}
    {r : Option Outcome} {k : State → Option Outcome} {o : Outcome}
    (hr : ∀ x, r = some x → ∃ x1, Q x1 ∧ AlikeOutcome c x x1)
    (hk : ∀ t t1 o, Alike c t t1 → k t = some o → ∃ o1, R t1 o1 ∧ AlikeOutcome c o o1)
    (h : seq r k = some o) : ∃ x1 o1, Q x1 ∧ x1.follow R o1 ∧ AlikeOutcome c o o1 := by
  cases hx : r with
  | none => simp [seq, hx] at h
  | some x =>
    rw [hx] at h
    obtain ⟨x1, hq, hxa⟩ := hr x hx
    obtain ⟨o1, hf, ho⟩ := alike_follow hxa hk (show x.andThen k = some o from h)
    exact ⟨x1, o1, hq, hf, ho⟩

theorem isComment_iff {c : Char} (h : isComment c = true) :
    isInstr c = false ∧ c ≠ '[' ∧ c ≠ ']' ∧ c ≠ ')' := by
  simp only [isComment, Bool.and_eq_true, Bool.not_eq_true', bne_iff_ne, ne_eq] at h
  obtain ⟨⟨h1, h2⟩, h3⟩ := h
  refine ⟨h1, ?_, h2, h3⟩
  intro e
  rw [e] at h1
  exact absurd h1 (by decide)

/-- Programs and stored blocks that are the same but for occurrences of a
comment character `c` run alike: if one run ends, so does the other, with an
outcome of the same kind and the same tape, cursor, input and output. -/
theorem comment_sim {c : Char} (hc : isComment c = true) (n : Nat) :
    (∀ p p1, Same c p p1 → ∀ s s1 o, Alike c s s1 → interpret n p s = some o →
      ∃ o1, Runs p1 s1 o1 ∧ AlikeOutcome c o o1) ∧
    (∀ p p1, Same c p p1 → ∀ s s1 o, Alike c s s1 → loop n p s = some o →
      ∃ o1, Loops p1 s1 o1 ∧ AlikeOutcome c o o1) := by
  obtain ⟨hci, hc1, hc2, hc3⟩ := isComment_iff hc
  induction n with
  | zero =>
    constructor <;> intro p p1 _ s s1 o _ h <;> simp [interpret_zero, loop_zero] at h
  | succ n ih =>
    obtain ⟨ihI, ihL⟩ := ih
    constructor
    · intro p p1 hp
      induction hp with
      | nil =>
        intro s s1 o hs h
        rw [interpret_nil] at h
        cases Option.some.inj h
        exact ⟨.done s1, (runs_nil _ _).2 rfl, s1, rfl, hs⟩
      | padLeft _ ihp =>
        intro s s1 o hs h
        rw [interpret_skip _ _ _ _ hci] at h
        exact ihp s s1 o hs (interpret_mono (Nat.le_succ n) h)
      | padRight _ ihp =>
        intro s s1 o hs h
        obtain ⟨o1, h1, h2⟩ := ihp s s1 o hs h
        exact ⟨o1, (runs_skip hci _ _ _).2 h1, h2⟩
      | @cons d b b1 hb _ =>
        intro s s1 o hs h
        have hk : ∀ t t1 o, Alike c t t1 → interpret n b t = some o →
            ∃ o1, Runs b1 t1 o1 ∧ AlikeOutcome c o o1 :=
          fun t t1 o ht h => ihI b b1 hb t t1 o ht h
        have hcell : s1.cell = s.cell := by
          obtain ⟨t1, rfl, _⟩ := hs
          rfl
        have prim_case : ∀ f : State → Outcome, prim d = some f →
            ∃ o1, Runs (d :: b1) s1 o1 ∧ AlikeOutcome c o o1 := by
          intro f hf
          rw [interpret_prim hf] at h
          obtain ⟨o1, h1, h2⟩ := alike_follow (prim_alike hf hs) hk h
          exact ⟨o1, (runs_prim hf _ _ _).2 h1, h2⟩
        rcases char_cases d with rfl | rfl | rfl | rfl | rfl | rfl | rfl | rfl | rfl | hd
        · exact prim_case plus rfl
        · exact prim_case minus rfl
        · exact prim_case right rfl
        · exact prim_case left rfl
        · exact prim_case put rfl
        · exact prim_case get rfl
        · rw [interpret_open] at h
          have hm := same_findMatch hc1 hc2 hb 0
          cases hx : findMatch 0 b with
          | none =>
            rw [hx] at hm h
            cases hx1 : findMatch 0 b1 with
            | some y1 => rw [hx1] at hm; exact hm.elim
            | none =>
              simp only at h
              cases Option.some.inj h
              exact ⟨.fault 4 s1, (runs_open_unmatched hx1 _ _).2 rfl, s1, rfl, hs⟩
          | some y =>
            rw [hx] at hm h
            cases hx1 : findMatch 0 b1 with
            | none => rw [hx1] at hm; exact hm.elim
            | some y1 =>
              rw [hx1] at hm
              obtain ⟨body, after⟩ := y
              obtain ⟨body1, after1⟩ := y1
              simp only at h
              obtain ⟨x1, o1, hq, hf, ho⟩ := alike_follow_seq
                (fun x hx => ihL body body1 hm.1 s s1 x hs hx)
                (fun t t1 o ht h => ihI after after1 hm.2 t t1 o ht h) h
              exact ⟨o1, (runs_open hx1 _ _).2 ⟨x1, hq, hf⟩, ho⟩
        · rw [interpret_define] at h
          cases hv : s.cell with
          | none =>
            simp only [hv] at h
            cases Option.some.inj h
            exact ⟨.undef .cellOutOfRange s1,
              (runs_define_nocell (hcell.trans hv) _).2 rfl, s1, rfl, hs⟩
          | some v =>
            simp only [hv] at h
            obtain ⟨hcap, hafter⟩ := same_capture hc3 hb
            have hs2 : Alike c { s with procedures := insert s.procedures v (captured b) }
                { s1 with procedures := insert s1.procedures v (captured b1) } := by
              obtain ⟨t1, rfl, ht⟩ := hs
              exact ⟨_, rfl, insert_same ht v hcap⟩
            rcases hafter with ⟨ha, ha1⟩ | ⟨a, a1, ha, ha1, hsame⟩
            · simp only [ha] at h
              cases Option.some.inj h
              exact ⟨_, (runs_define_past (hcell.trans hv) ha1 _).2 rfl, _, rfl, hs2⟩
            · simp only [ha] at h
              obtain ⟨o1, h1, h2⟩ := ihI a a1 hsame _ _ o hs2 h
              exact ⟨o1, (runs_define (hcell.trans hv) ha1 _).2 h1, h2⟩
        · rw [interpret_call] at h
          cases hv : s.cell with
          | none =>
            simp only [hv] at h
            cases Option.some.inj h
            exact ⟨.undef .cellOutOfRange s1,
              (runs_call_nocell (hcell.trans hv) _).2 rfl, s1, rfl, hs⟩
          | some v =>
            simp only [hv] at h
            have hfs : (find s.procedures v = none ∧ find s1.procedures v = none) ∨
                ∃ x x1, find s.procedures v = some x ∧ find s1.procedures v = some x1 ∧
                  Same c x x1 := by
              obtain ⟨t1, rfl, ht⟩ := hs
              exact find_same ht v
            rcases hfs with ⟨hf, hf1⟩ | ⟨x, x1, hf, hf1, hsame⟩
            · simp only [hf] at h
              cases Option.some.inj h
              exact ⟨.fault 2 s1, (runs_call_unknown (hcell.trans hv) hf1 _).2 rfl, s1, rfl, hs⟩
            · simp only [hf] at h
              obtain ⟨y1, o1, hq, hfo, ho⟩ := alike_follow_seq
                (fun y hy => ihI x x1 hsame s s1 y hs hy) hk h
              exact ⟨o1, (runs_call (hcell.trans hv) hf1 _).2 ⟨y1, hq, hfo⟩, ho⟩
        · rw [interpret_skip _ _ _ _ hd] at h
          obtain ⟨o1, h1, h2⟩ := hk s s1 o hs h
          exact ⟨o1, (runs_skip hd _ _ _).2 h1, h2⟩
    · intro p p1 hp s s1 o hs h
      have hcell : s1.cell = s.cell := by
        obtain ⟨t1, rfl, _⟩ := hs
        rfl
      rw [loop_succ] at h
      cases hv : s.cell with
      | none =>
        simp only [hv] at h
        cases Option.some.inj h
        exact ⟨.undef .cellOutOfRange s1, (loops_nocell (hcell.trans hv) _).2 rfl, s1, rfl, hs⟩
      | some v =>
        simp only [hv] at h
        by_cases h0 : v = 0
        · rw [if_pos h0] at h
          cases Option.some.inj h
          exact ⟨.done s1, (loops_zero (by rw [hcell, hv, h0]) _).2 rfl, s1, rfl, hs⟩
        · rw [if_neg h0] at h
          obtain ⟨x1, o1, hq, hf, ho⟩ := alike_follow_seq
            (fun x hx => ihI p p1 hp s s1 x hs hx)
            (fun t t1 o ht h => ihL p p1 hp t t1 o ht h) h
          exact ⟨o1, (loops_nonzero (hcell.trans hv) h0 _).2 ⟨x1, hq, hf⟩, ho⟩

theorem alikeOutcome_observed {c : Char} {o o1 : Outcome} (h : AlikeOutcome c o o1) :
    finish (some o1) = finish (some o) ∧ o1.state.mem = o.state.mem ∧
      o1.state.mp = o.state.mp ∧ o1.state.output = o.state.output ∧
      o1.state.input = o.state.input := by
  cases o with
  | done s =>
    obtain ⟨s1, rfl, t1, rfl, _⟩ := h
    exact ⟨rfl, rfl, rfl, rfl, rfl⟩
  | fault e s =>
    obtain ⟨s1, rfl, t1, rfl, _⟩ := h
    exact ⟨rfl, rfl, rfl, rfl, rfl⟩
  | undef u s =>
    obtain ⟨s1, rfl, t1, rfl, _⟩ := h
    exact ⟨rfl, rfl, rfl, rfl, rfl⟩

/-- C13: let `c` be none of the eleven symbols, and insert it at any place of a
program (between `p1` and `p2`).  If the run of the program from `s` ends with
the outcome `o`, the run of the program with the insertion ends with an
outcome `o1` of the same kind (normal return, the same fault, the same
undefined behaviour) whose state has the same tape, cursor, input and output,
the procedure tables having the same keys and blocks that differ by
occurrences of `c` only; and conversely.  What `main` then leaves behind
(output, diagnostic, exit status) is the same. -/
theorem C13_comments (c : Char) (hc : isComment c = true) (p1 p2 : SourceBlock) (s : State) :
    (∀ o, Runs (p1 ++ p2) s o →
      ∃ o1, Runs (p1 ++ c :: p2) s o1 ∧ AlikeOutcome c o o1 ∧
        finish (some o1) = finish (some o) ∧ o1.state.mem = o.state.mem ∧
        o1.state.mp = o.state.mp ∧ o1.state.output = o.state.output) ∧
    (∀ o1, Runs (p1 ++ c :: p2) s o1 →
      ∃ o, Runs (p1 ++ p2) s o ∧ AlikeOutcome c o o1 ∧
        finish (some o1) = finish (some o) ∧ o1.state.mem = o.state.mem ∧
        o1.state.mp = o.state.mp ∧ o1.state.output = o.state.output) := by
  constructor
  · rintro o ⟨n, hn⟩
    obtain ⟨o1, h1, h2⟩ := (comment_sim hc n).1 _ _ (same_insert c p1 p2) s s o
      (alike_refl c s) hn
    obtain ⟨h3, h4, h5, h6, _⟩ := alikeOutcome_observed h2
    exact ⟨o1, h1, h2, h3, h4, h5, h6⟩
  · rintro o1 ⟨n, hn⟩
    obtain ⟨o, h1, h2⟩ := (comment_sim hc n).1 _ _ (same_symm (same_insert c p1 p2)) s s o1
      (alike_refl c s) hn
    obtain ⟨h3, h4, h5, h6, _⟩ := alikeOutcome_observed (alikeOutcome_symm h2)
    exact ⟨o, h1, alikeOutcome_symm h2, h3, h4, h5, h6⟩

theorem C13_comments_witness :
    isComment 'x' = true ∧
    ((∀ o, Runs (['+', '('] ++ ['.', ')', ':']) blank o →
      ∃ o1, Runs (['+', '('] ++ 'x' :: ['.', ')', ':']) blank o1 ∧ AlikeOutcome 'x' o o1 ∧
        finish (some o1) = finish (some o) ∧ o1.state.mem = o.state.mem ∧
        o1.state.mp = o.state.mp ∧ o1.state.output = o.state.output) ∧
    (∀ o1, Runs (['+', '('] ++ 'x' :: ['.', ')', ':']) blank o1 →
      ∃ o, Runs (['+', '('] ++ ['.', ')', ':']) blank o ∧ AlikeOutcome 'x' o o1 ∧
        finish (some o1) = finish (some o) ∧ o1.state.mem = o.state.mem ∧
        o1.state.mp = o.state.mp ∧ o1.state.output = o.state.output)) :=
  ⟨by decide, C13_comments 'x' (by decide) ['+', '('] ['.', ')', ':'] blank⟩

end Pbrain
